import Mathlib

/-!
Verification development for the `jobs.py` resource-locking library.

The library coordinates exclusive output locks and shared input locks for
data-pipeline jobs through a Redis store, with all state transitions done by
three atomic server-side scripts: an acquire/refresh script
(`_run_if_possible_lua`), a finish script (`_finish_job_lua`), and a read-only
listing script (`_get_job_info_lua`).  We model the store as separate maps for
string keys and sorted sets, and transcribe each script as a pure state
transformer.  Client-side pieces of `jobs.py` that the properties mention
(`can_run`, `_start`'s wait loop, the auto-refresh worker loop, the ad-hoc
logger's attribute table, `__init__`'s argument clamping, and edge
sanitization) are embedded as well; Python dynamic-typing failures
(TypeError, AttributeError) are modelled with `Except`.
-/

set_option linter.unusedVariables false

/-! ## The store

Redis strings and sorted sets, with the pieces of TTL state that the scripts
read or write.  A sorted set is an association list from member to score; the
empty list is an absent key (matching the Redis convention that a sorted set
key ceases to exist once its last member is removed, at which point its TTL is
also gone).  Time passage between script executions is not modelled: keys do
not expire spontaneously, which matches the scripts' own lazy score-based
cleanup and affects none of the stated properties.
-/

/-- Score lookup on the association-list view of a sorted set (first match,
as when the list has no duplicate members). -/
def zscoreL : List (String × Int) → String → Option Int
  | [], _ => none
  | p :: t, m => if p.1 = m then some p.2 else zscoreL t m

structure Store where
  str : String → Option String
  strTtl : String → Option Int
  zs : String → List (String × Int)
  zttl : String → Option Int

def emptyStore : Store :=
  ⟨fun _ => none, fun _ => none, fun _ => [], fun _ => none⟩

namespace Store

/-- Redis SET: stores the value and clears any TTL. -/
def setStr (s : Store) (k v : String) : Store :=
  { s with str := fun x => if x = k then some v else s.str x,
           strTtl := fun x => if x = k then none else s.strTtl x }

/-- Redis SETEX: stores the value with a TTL. -/
def setex (s : Store) (k : String) (t : Int) (v : String) : Store :=
  { s with str := fun x => if x = k then some v else s.str x,
           strTtl := fun x => if x = k then some t else s.strTtl x }

/-- Redis DEL on a string key. -/
def delStr (s : Store) (k : String) : Store :=
  { s with str := fun x => if x = k then none else s.str x,
           strTtl := fun x => if x = k then none else s.strTtl x }

/-- ZADD on the association-list representation: update the member's score in
place if present, else append. -/
def zaddL (l : List (String × Int)) (m : String) (sc : Int) : List (String × Int) :=
  if l.any (fun p => p.1 == m) then l.map (fun p => if p.1 == m then (m, sc) else p)
  else l ++ [(m, sc)]

/-- Redis ZADD. -/
def zadd (s : Store) (k : String) (sc : Int) (m : String) : Store :=
  { s with zs := fun x => if x = k then zaddL (s.zs k) m sc else s.zs x }

/-- Removal from a sorted set, keeping the members satisfying `keep`; when the
set becomes empty the key is gone and its TTL with it. -/
def zremFilter (s : Store) (k : String) (keep : String × Int → Bool) : Store :=
  let l := (s.zs k).filter keep
  { s with zs := fun x => if x = k then l else s.zs x,
           zttl := fun x => if x = k then (if l = [] then none else s.zttl x) else s.zttl x }

/-- Redis ZREM of a single member. -/
def zrem (s : Store) (k m : String) : Store :=
  s.zremFilter k (fun p => !(p.1 == m))

/-- Redis ZREMRANGEBYSCORE with an inclusive range; `lo = none` is `-inf`. -/
def zremrange (s : Store) (k : String) (lo : Option Int) (hi : Int) : Store :=
  s.zremFilter k (fun p =>
    !((match lo with | none => true | some l => decide (l ≤ p.2)) && decide (p.2 ≤ hi)))

/-- Redis ZSCORE. -/
def zscore (s : Store) (k m : String) : Option Int :=
  zscoreL (s.zs k) m

/-- Redis TTL on a sorted-set key: -2 when the key is absent, -1 when it has
no expiry, else the stored TTL. -/
def ttlZ (s : Store) (k : String) : Int :=
  if s.zs k = [] then -2 else match s.zttl k with | some t => t | none => -1

/-- Redis EXPIRE on a sorted-set key (no effect on a missing key). -/
def zexpire (s : Store) (k : String) (t : Int) : Store :=
  if s.zs k = [] then s
  else { s with zttl := fun x => if x = k then some t else s.zttl x }

/-- Well-formed store: no sorted set holds the same member twice.  Genuine
Redis sorted sets satisfy this by construction. -/
def WF (s : Store) : Prop := ∀ k, ((s.zs k).map Prod.fst).Nodup

end Store

/-! ## The acquire/refresh script (`_run_if_possible_lua`)

KEYS is `inputs ++ [sentinel] ++ outputs` with the empty string as sentinel.
The single argument bundle carries the global key prefix, the job identifier,
the caller clock, the lock duration, and the overwrite/refresh flags, plus the
sanitized lineage edges. -/

abbrev Failure := String × String

structure AcqArgs where
  id : String
  now : Int
  duration : Int
  overwrite : Bool
  refresh : Bool
  edges : List String
deriving DecidableEq

/-- Result of the acquire/refresh script, as decoded from its JSON reply:
either a hard failure carrying the err and temp lists, or ok carrying the
temp list (empty when the reply is a bare ok). -/
inductive AcqResult
  | fail (err : List Failure) (temp : List Failure)
  | ok (temp : List Failure)
deriving DecidableEq

def isHardFail : AcqResult → Bool
  | .fail _ _ => true
  | .ok _ => false

def resOk : AcqResult → Bool
  | .fail _ _ => false
  | .ok _ => true

def errOf : AcqResult → List Failure
  | .fail e _ => e
  | .ok _ => []

def hasErrKind (r : AcqResult) (kind : String) : Bool :=
  (errOf r).any (fun p => p.1 == kind)

/-- Accumulator of the script's first (checking) loop: the store after the
lazy purges done so far, the input/output flag, and the failure lists. -/
structure ScanSt where
  s : Store
  isInput : Bool
  fails : List Failure
  temps : List Failure

/-- The script's `olock` guard: the output lock for `kk` is held by an
identifier other than the caller's. -/
def olockOtherB (pfx : String) (a : AcqArgs) (s : Store) (kk : String) : Bool :=
  match s.str (pfx ++ "olock:" ++ kk) with
  | some v => v != a.id
  | none => false

/-- One iteration of the checking loop, transcribed from the Lua source:
read `exists` and the output lock, purge expired members from the key's input
lock set, then classify.  The purge runs before the sentinel test, exactly as
in the source. -/
def scanStep (pfx : String) (a : AcqArgs) (st : ScanSt) (kk : String) : ScanSt :=
  let ex : Bool := (st.s.str (pfx ++ kk)).isSome
  let olockOther : Bool := olockOtherB pfx a st.s kk
  let ilk := pfx ++ "ilock:" ++ kk
  let s := st.s.zremrange ilk (some 0) a.now
  let ilockSet : Bool := !(s.zs ilk).isEmpty
  if kk = "" then ⟨s, false, st.fails, st.temps⟩
  else if st.isInput then
    if olockOther || !ex then
      if a.refresh then ⟨s, st.isInput, st.fails ++ [("input_lock_lost", kk)], st.temps⟩
      else ⟨s, st.isInput, st.fails ++ [("input_missing", kk)], st.temps⟩
    else if a.refresh && (s.zscore ilk a.id).isNone then
      ⟨s, st.isInput, st.fails, st.temps ++ [("input_lock_lost", kk)]⟩
    else ⟨s, st.isInput, st.fails, st.temps⟩
  else
    if ex && !a.overwrite then ⟨s, st.isInput, st.fails ++ [("output_exists", kk)], st.temps⟩
    else if olockOther then ⟨s, st.isInput, st.fails ++ [("output_locked", kk)], st.temps⟩
    else if ilockSet then ⟨s, st.isInput, st.fails ++ [("output_used", kk)], st.temps⟩
    else if a.refresh && (s.str (pfx ++ "olock:" ++ kk)).isNone then
      ⟨s, st.isInput, st.fails, st.temps ++ [("output_lock_lost", kk)]⟩
    else ⟨s, st.isInput, st.fails, st.temps⟩

/-- One iteration of the mutation loop: inputs get a member in their input
lock set (with a TTL top-up), outputs get an exclusive output lock. -/
def mutStep (pfx : String) (a : AcqArgs) (acc : Store × Bool) (kk : String) : Store × Bool :=
  if kk = "" then (acc.1, false)
  else if acc.2 then
    let ilk := pfx ++ "ilock:" ++ kk
    let s := acc.1.zadd ilk (a.now + a.duration) a.id
    let s := if s.ttlZ ilk < a.duration then s.zexpire ilk a.duration else s
    (s, acc.2)
  else
    (acc.1.setex (pfx ++ "olock:" ++ kk) a.duration a.id, acc.2)

/-- One lineage-graph write: edges before the separator are input edges,
after it output edges. -/
def graphStep (pfx : String) (now : Int) (gid : String) (acc : Store × Bool) (kk : String) :
    Store × Bool :=
  if kk = "" then (acc.1, false)
  else if acc.2 then
    (acc.1.zadd (pfx ++ "jobs:graph:input") now (kk ++ " -> " ++ gid), acc.2)
  else
    (acc.1.zadd (pfx ++ "jobs:graph:output") now (gid ++ " -> " ++ kk), acc.2)

/-- The lineage record: the script pops the sanitized job id and a separator
off the end of the edge list and walks the rest. -/
def writeGraph (pfx : String) (now : Int) (edges : List String) (s : Store) : Store :=
  let gid := (edges.getLast?).getD ""
  let g := edges.dropLast.dropLast
  (g.foldl (graphStep pfx now gid) (s, true)).1

/-- The value stored under `jobs:running:<id>`: the serialized key list. -/
def encodeKeys (keys : List String) : String :=
  "[" ++ String.intercalate "," (keys.map (fun k => "\x22" ++ k ++ "\x22")) ++ "]"

/-- The checking phase of the acquire/refresh script: prune the expired
`jobs:running` members, then walk the keys. -/
def acqScan (pfx : String) (a : AcqArgs) (keys : List String) (s : Store) : ScanSt :=
  keys.foldl (scanStep pfx a) ⟨s.zremrange (pfx ++ "jobs:running") none a.now, true, [], []⟩

/-- The mutation phase of the acquire/refresh script, run only when the
checking phase found no hard failure and the duration is non-zero: write the
locks, record the running job, and (when not refreshing) store the lineage
edges. -/
def acqCommit (pfx : String) (a : AcqArgs) (keys : List String) (s2 : Store) : Store :=
  let s3 := (keys.foldl (mutStep pfx a) (s2, true)).1
  let s4 := s3.zadd (pfx ++ "jobs:running") (a.now + a.duration) a.id
  let s5 := s4.setex (pfx ++ "jobs:running:" ++ a.id) a.duration (encodeKeys keys)
  if a.refresh then s5 else writeGraph pfx a.now a.edges s5

/-- The whole acquire/refresh script.  Any hard failure returns without
further mutation; `duration = 0` is a pure probe; otherwise the mutation
phase runs, and a soft (`temp`) loss list is echoed with the ok reply. -/
def acquireRes (pfx : String) (a : AcqArgs) (keys : List String) (s : Store) :
    AcqResult × Store :=
  let sc := acqScan pfx a keys s
  if sc.fails ≠ [] then (.fail sc.fails sc.temps, sc.s)
  else if a.duration = 0 then (.ok [], sc.s)
  else if sc.temps ≠ [] then (.ok sc.temps, acqCommit pfx a keys sc.s)
  else (.ok [], acqCommit pfx a keys sc.s)

/-! ## The finish script (`_finish_job_lua`) -/

structure FinArgs where
  id : String
  now : Int
  success : Bool
deriving DecidableEq

/-- One iteration of the finish loop: inputs get their expired members purged
and the finisher's member removed; for outputs, the output lock is deleted
when the finisher owns it, and on success the output marker is written. -/
def finStep (pfx : String) (a : FinArgs) (acc : Store × Bool) (kk : String) : Store × Bool :=
  if kk = "" then (acc.1, false)
  else if acc.2 then
    let ilk := pfx ++ "ilock:" ++ kk
    let s := acc.1.zremrange ilk (some 0) a.now
    (s.zrem ilk a.id, acc.2)
  else
    let olk := pfx ++ "olock:" ++ kk
    let s := if acc.1.str olk = some a.id then acc.1.delStr olk else acc.1
    let s := if a.success then s.setStr (pfx ++ kk) a.id else s
    (s, acc.2)

/-- The whole finish script: walk the keys, then drop the job from the
running set and delete its key-list record. -/
def finishScript (pfx : String) (a : FinArgs) (keys : List String) (s : Store) : Store :=
  let s1 := (keys.foldl (finStep pfx a) (s, true)).1
  let s2 := s1.zrem (pfx ++ "jobs:running") a.id
  s2.delStr (pfx ++ "jobs:running:" ++ a.id)

/-! ## The listing script (`_get_job_info_lua`)

Read-only: returns id, expiry and the stored key-list string of every
`jobs:running` member whose score is at least `now`, and leaves the store
untouched. -/

def listRunningRes (pfx : String) (now : Int) (s : Store) :
    (List (String × Int × Option String)) × Store :=
  (((s.zs (pfx ++ "jobs:running")).filter (fun p => decide (now ≤ p.2))).map
      (fun p => (p.1, p.2, s.str (pfx ++ "jobs:running:" ++ p.1))), s)

/-! ## Reserved key namespaces

The scripts place all bookkeeping under the `olock:`, `ilock:` and `jobs:`
namespaces (below the global prefix).  A resource name that itself begins
with one of these collides with the bookkeeping keys; `cleanKey` excludes
that. -/

def cleanL (l : List Char) : Bool :=
  !((l.take 6 == "olock:".data) || (l.take 6 == "ilock:".data) || (l.take 5 == "jobs:".data))

def cleanKey (k : String) : Bool := cleanL k.data

/-- Store states reachable from the empty store by the three scripts, with a
fixed global prefix, where every key list is made of reserved-namespace-free
names (plus the sentinel). -/
inductive Reachable (pfx : String) : Store → Prop
  | empty : Reachable pfx emptyStore
  | acq (s : Store) (a : AcqArgs) (keys : List String) :
      Reachable pfx s → (∀ k ∈ keys, cleanKey k = true) →
      Reachable pfx (acquireRes pfx a keys s).2
  | fin (s : Store) (a : FinArgs) (keys : List String) :
      Reachable pfx s → (∀ k ∈ keys, cleanKey k = true) →
      Reachable pfx (finishScript pfx a keys s)
  | listr (s : Store) (now : Int) :
      Reachable pfx s → Reachable pfx (listRunningRes pfx now s).2

/-- The claimed invariant: an output lock on resource R held by one
identifier and an input-lock membership on R by a different identifier never
coexist. -/
def InvC2 (pfx : String) (s : Store) : Prop :=
  ∀ R id1 id2 sc, s.str (pfx ++ "olock:" ++ R) = some id1 →
    s.zscore (pfx ++ "ilock:" ++ R) id2 = some sc → id2 = id1

/-! ## Python-side models -/

/-- A Python value as relevant here: None, a float (timestamps), or an int. -/
inductive PyV
  | pnone
  | pnum (t : Int)
  | pint (n : Nat)
deriving DecidableEq

/-- Indexing a Python list of optional timestamps: only an int index works;
a float or None raises TypeError. -/
def pyIndexOpt (l : List (Option Int)) (v : PyV) : Except String (Option Int) :=
  match v with
  | .pint n => match l.get? n with
    | some x => .ok x
    | none => .error "IndexError: list index out of range"
  | .pnum _ => .error "TypeError: list indices must be integers or slices, not float"
  | .pnone => .error "TypeError: list indices must be integers or slices, not NoneType"

/-- Indexing the parallel `jobs` list (managers modelled by their index). -/
def pyIndexNat (l : List Nat) (v : PyV) : Except String Nat :=
  match v with
  | .pint n => match l.get? n with
    | some x => .ok x
    | none => .error "IndexError: list index out of range"
  | .pnum _ => .error "TypeError: list indices must be integers or slices, not float"
  | .pnone => .error "TypeError: list indices must be integers or slices, not NoneType"

/-- Python `<` between a float and a list element that may be None. -/
def pyLt (a : Int) (b : Option Int) : Except String Bool :=
  match b with
  | some x => .ok (decide (a < x))
  | none => .error "TypeError: not supported between instances of float and NoneType"

/-- One iteration of the selection loop in `_start_auto_refresh`'s worker,
transcribed from the source: on a manager whose `last_refreshed` is a time
`ti`, the source assigns `job = ti` (the timestamp, not the index) and
compares `ti < times[job]`; on None it discards the manager from the set. -/
def pickStep (times : List (Option Int)) (acc : Except String (PyV × List Nat))
    (p : Nat × Option Int) : Except String (PyV × List Nat) :=
  match acc with
  | .error e => .error e
  | .ok (job, kept) =>
    match p.2 with
    | some ti =>
      match job with
      | .pnone => .ok (.pnum ti, kept)
      | _ =>
        match pyIndexOpt times job with
        | .error e => .error e
        | .ok tj =>
          match pyLt ti tj with
          | .error e => .error e
          | .ok b => .ok (if b then PyV.pnum ti else job, kept)
    | none => .ok (job, kept.filter (fun x => x ≠ p.1))

/-- The worker's per-iteration manager selection (`_start_auto_refresh`):
run the loop over `enumerate(times)`, then — unless the registered set became
empty — evaluate `last = times[job]` and `job = jobs[job]`.  Returns `none`
when the worker exits, else the selected manager's `last_refreshed` and
index. -/
def autoRefreshPick (times : List (Option Int)) : Except String (Option (Option Int × Nat)) :=
  match times.enum.foldl (pickStep times) (Except.ok (PyV.pnone, List.range times.length)) with
  | .error e => .error e
  | .ok (job, kept) =>
    if kept.isEmpty then .ok none
    else
      match pyIndexOpt times job with
      | .error e => .error e
      | .ok last =>
        match pyIndexNat (List.range times.length) job with
        | .error e => .error e
        | .ok j => .ok (some (last, j))

/-- Python `str.split()` on single spaces (structural, so proofs can
evaluate it). -/
def splitWsGo (acc : List Char) : List Char → List String
  | [] => [⟨acc.reverse⟩]
  | c :: rest => if c = ' ' then ⟨acc.reverse⟩ :: splitWsGo [] rest else splitWsGo (c :: acc) rest

def pySplitWs (s : String) : List String := splitWsGo [] s.data

/-- The attributes of `BullshitLog`: the class body defines `level`,
`setLevel` and `getEffectiveLevel`, and the setattr loop adds one log method
per name in the split string — exactly as in the source. -/
def bullshitLogHasAttr (name : String) : Bool :=
  (["level", "setLevel", "getEffectiveLevel"].contains name) ||
    ((pySplitWs "debug info warning error critical exception").contains name)

/-- The auto-refresh worker's exception handler: the source runs
`DEFAULT_LOGGER.execption(...)`, i.e. looks up the attribute named
"execption" on the logger and calls it.  A missing attribute raises
AttributeError out of the handler. -/
def workerHandleException : Except String Unit :=
  if bullshitLogHasAttr "execption" then .ok ()
  else .error "AttributeError: BullshitLog instance has no attribute execption"

/-- `ResourceManager.can_run`: calls `_run_if_possible` with duration 0 and
no history flag (so the edge list is two empty strings), and returns the
whole structured result — the parsed reply dict, not its ok flag. -/
def can_run (pfx : String) (inputs outputs : List String) (id : String)
    (overwrite : Bool) (now : Int) (s : Store) : AcqResult × Store :=
  acquireRes pfx ⟨id, now, 0, overwrite, false, ["", ""]⟩ (inputs ++ [""] ++ outputs) s

/-- Python truthiness of the value `can_run` returns: the decoded reply is a
dict that always contains at least the key ok, and a non-empty dict is
truthy. -/
def resultTruthy : AcqResult → Bool
  | .fail _ _ => true
  | .ok _ => true

/-- Python `max(w, 0)` where `w` may be the default None: comparing None with
an int raises TypeError under Python 3. -/
def pyMax0 (w : PyV) : Except String Int :=
  match w with
  | .pnone => .error "TypeError: not supported between instances of int and NoneType"
  | .pnum t => .ok (max t 0)
  | .pint n => .ok (max (n : Int) 0)

/-- The fields `ResourceManager.__init__` computes. -/
structure RMInit where
  inputs : List String
  outputs : List String
  duration : Int
  wait : Int
  overwrite : Bool
  last_refreshed : Option Int
  identifier : String
  graph_history : Bool
deriving DecidableEq

/-- `ResourceManager.__init__`: clamps `duration` then `wait` with
`max(_, 0)`; the identifier is the base with a random decimal component
appended.  With the default `wait=None` the clamp raises TypeError. -/
def ResourceManager_init (inputs outputs : List String) (duration : Int) (wait : PyV)
    (overwrite : Bool) (graph_history : Bool) (base : String) (rnd : Nat) :
    Except String RMInit :=
  let d := max duration 0
  match pyMax0 wait with
  | .error e => .error e
  | .ok w =>
    .ok ⟨inputs, outputs, d, w, overwrite, none, base ++ "." ++ toString rnd, graph_history⟩

/-! ## The `_start` wait loop

`_start` reads the wall clock repeatedly; we model the clock as a stream of
readings consumed one per `time.time()` call, and the successive acquire
attempts by an oracle giving each attempt's script result (the script calls
inside `tr` do not steer the loop other than through that result).  Sleeping
is represented by the advance of the stream; a fuel argument bounds the loop
so the model stays executable. -/

structure StartOut where
  attempts : Nat
  success : Bool
  err : List Failure
  outOfFuel : Bool
deriving DecidableEq

/-- The single attempt made after the wait loop exits, and the raise of
ResourceUnavailable with the final error map on failure. -/
def startFinal (res : Nat → AcqResult) (att : Nat) : StartOut :=
  ⟨att + 1, resOk (res att), errOf (res att), false⟩

/-- The wait loop of `_start`, transcribed from the source: while the clock
is before `stopW`, attempt; stop on success; break to the final attempt on an
`output_exists` error; otherwise maybe emit the 30-second progress report
(updating `lastRep`) and sleep.  Clock indices: the condition reads index
`i`, the report test reads `i+1` (and on report the new `lastRep` reads
`i+2`), and the sleep computation reads one more. -/
def startLoop (clock : Nat → Int) (res : Nat → AcqResult) (stopW : Int) :
    Nat → Int → Nat → Nat → StartOut
  | 0, _, _, att => ⟨att, false, [], true⟩
  | fuel + 1, lastRep, i, att =>
    if clock i < stopW then
      if resOk (res att) then ⟨att + 1, true, [], false⟩
      else if hasErrKind (res att) "output_exists" then startFinal res (att + 1)
      else if 30 ≤ clock (i + 1) - lastRep then
        startLoop clock res stopW fuel (clock (i + 2)) (i + 4) (att + 1)
      else
        startLoop clock res stopW fuel lastRep (i + 3) (att + 1)
    else startFinal res att

/-- `_start`: `last_reported = time() - 29`, `stop_waiting = time() +
max(self.wait or 0, 0)`, then the loop, then one final attempt. -/
def startModel (wait : Int) (clock : Nat → Int) (res : Nat → AcqResult) (fuel : Nat) :
    StartOut :=
  let w := max (if wait = 0 then 0 else wait) 0
  startLoop clock res (clock 1 + w) fuel (clock 0 - 29) 2 0

/-! ## Edge sanitization (`EDGE_RE` / `_fix_edge`)

`re.sub('[0-9][0-9-]*', '*', e)`: each maximal run that starts with an ASCII
digit and continues with digits and dashes collapses to a single star. -/

def isDig (c : Char) : Bool := ('0' ≤ c) && (c ≤ '9')

def isRun (c : Char) : Bool := isDig c || c = '-'

/-- The sanitizer on character lists; the Boolean records whether we are
inside a matched run. -/
def fixEdgeGo : Bool → List Char → List Char
  | _, [] => []
  | true, c :: rest =>
    if isRun c then fixEdgeGo true rest
    else c :: fixEdgeGo false rest
  | false, c :: rest =>
    if isDig c then '*' :: fixEdgeGo true rest
    else c :: fixEdgeGo false rest

/-- `_fix_edge`. -/
def fix_edge (e : String) : String := ⟨fixEdgeGo false e.data⟩

/-! ## Derived views used by the proofs -/

/-- The keys a script loop treats as inputs, given the current value of the
input/output flag: everything before the first sentinel (nothing once the
flag has flipped). -/
def insPartF (flag : Bool) (ks : List String) : List String :=
  if flag then ks.takeWhile (fun k => !(k == "")) else []

/-- The keys a script loop treats as outputs: every non-sentinel key from the
first sentinel on. -/
def outsPartF (flag : Bool) (ks : List String) : List String :=
  (if flag then ks.dropWhile (fun k => !(k == "")) else ks).filter (fun k => !(k == ""))

/-- The string-key commands the finish script can issue: the conditional
delete of an owned output lock, the output-marker write, and the delete of
the running-job record. -/
inductive Cmd
  | cdel
  | sets
  | dels
deriving DecidableEq

/-- Effect of one finish-script string command on a single cell
(value, TTL). -/
def stepCell (id : String) (v : Option String × Option Int) : Cmd → Option String × Option Int
  | .cdel => if v.1 = some id then (none, none) else v
  | .sets => (some id, none)
  | .dels => (none, none)

def applyCell (id : String) (cmds : List Cmd) (v : Option String × Option Int) :
    Option String × Option Int :=
  cmds.foldl (stepCell id) v

/-- The addressed string commands issued by the finish loop, in order. -/
def finStrCmdsF (pfx : String) (a : FinArgs) : Bool → List String → List (String × Cmd)
  | _, [] => []
  | flag, kk :: ks =>
    if kk = "" then finStrCmdsF pfx a false ks
    else if flag then finStrCmdsF pfx a flag ks
    else
      ((pfx ++ "olock:" ++ kk, Cmd.cdel) ::
        (if a.success then [(pfx ++ kk, Cmd.sets)] else [])) ++ finStrCmdsF pfx a flag ks

/-- All addressed string commands of one finish-script run. -/
def finStrCmds (pfx : String) (a : FinArgs) (keys : List String) : List (String × Cmd) :=
  finStrCmdsF pfx a true keys ++ [(pfx ++ "jobs:running:" ++ a.id, Cmd.dels)]

/-- The commands aimed at one particular key. -/
def cellCmds (cl : List (String × Cmd)) (x : String) : List Cmd :=
  (cl.filter (fun p => p.1 == x)).map (fun p => p.2)

/-- The member filter of the finish loop's expired-entry purge. -/
def purgePred (now : Int) (p : String × Int) : Bool :=
  !(decide (0 ≤ p.2) && decide (p.2 ≤ now))

/-- The member filter of a ZREM of one member. -/
def remPred (id : String) (p : String × Int) : Bool := !(p.1 == id)

/-- The addressed sorted-set removal commands issued by the finish loop. -/
def finZCmdsF (pfx : String) (a : FinArgs) :
    Bool → List String → List (String × (String × Int → Bool))
  | _, [] => []
  | flag, kk :: ks =>
    if kk = "" then finZCmdsF pfx a false ks
    else if flag then
      (pfx ++ "ilock:" ++ kk, purgePred a.now) :: (pfx ++ "ilock:" ++ kk, remPred a.id) ::
        finZCmdsF pfx a flag ks
    else finZCmdsF pfx a flag ks

/-- All addressed sorted-set commands of one finish-script run. -/
def finZCmds (pfx : String) (a : FinArgs) (keys : List String) :
    List (String × (String × Int → Bool)) :=
  finZCmdsF pfx a true keys ++ [(pfx ++ "jobs:running", remPred a.id)]

/-- Effect of one removal command on a single sorted-set cell (member list,
TTL): filter the list, dropping the TTL when the set empties. -/
def zOp (c : List (String × Int) × Option Int) (p : String × Int → Bool) :
    List (String × Int) × Option Int :=
  (c.1.filter p, if c.1.filter p = [] then none else c.2)

def applyZCell (cmds : List (String × Int → Bool)) (c : List (String × Int) × Option Int) :
    List (String × Int) × Option Int :=
  cmds.foldl zOp c

/-- The removal commands aimed at one particular sorted-set key. -/
def cellZCmds (cl : List (String × (String × Int → Bool))) (x : String) :
    List (String × Int → Bool) :=
  (cl.filter (fun p => p.1 == x)).map (fun p => p.2)

/-- States `s'` differing from `s` only by removal of expired sorted-set
entries (score at most `now`) and the disappearance of TTLs on emptied
sets. -/
def ExpFrame (now : Int) (s s' : Store) : Prop :=
  (∀ k, s'.str k = s.str k) ∧ (∀ k, s'.strTtl k = s.strTtl k) ∧
  (∀ k m, s'.zscore k m = s.zscore k m ∨
    (s'.zscore k m = none ∧ ∃ sc, s.zscore k m = some sc ∧ sc ≤ now)) ∧
  (∀ k, s'.zttl k = s.zttl k ∨ s'.zttl k = none)

/-! # Theorems

## Basic string facts -/

theorem str_app_data (a b : String) : (a ++ b).data = a.data ++ b.data := rfl

theorem str_app_cancel {a b c : String} (h : a ++ b = a ++ c) : b = c := by
  have h2 : (a ++ b).data = (a ++ c).data := by rw [h]
  rw [str_app_data, str_app_data] at h2
  have h3 := List.append_cancel_left h2
  cases b; cases c; exact congrArg String.mk h3

theorem str_app_assoc (a b c : String) : a ++ b ++ c = a ++ (b ++ c) := by
  cases a; cases b; cases c
  apply congrArg String.mk
  exact List.append_assoc _ _ _

theorem clean_not_olock {k : String} (h : cleanKey k = true) (R : String) :
    k ≠ "olock:" ++ R := by
  intro he
  rw [he] at h
  have h2 : cleanKey ("olock:" ++ R) = false := rfl
  rw [h2] at h
  exact Bool.noConfusion h

theorem clean_not_jobs_running_id (k : String) (h : cleanKey k = true) (i : String) :
    k ≠ "jobs:running:" ++ i := by
  intro he
  rw [he] at h
  have h2 : cleanKey ("jobs:running:" ++ i) = false := rfl
  rw [h2] at h
  exact Bool.noConfusion h

theorem jobs_running_ne_ilock (R : String) : ("jobs:running" : String) ≠ "ilock:" ++ R := by
  intro h
  have h2 : ("jobs:running" : String).data.head? = ("ilock:" ++ R).data.head? := by rw [h]
  have h3 : ("ilock:" ++ R).data.head? = some 'i' := rfl
  rw [h3] at h2
  exact absurd h2 (by decide)

theorem graph_in_ne_ilock (R : String) : ("jobs:graph:input" : String) ≠ "ilock:" ++ R := by
  intro h
  have h2 : ("jobs:graph:input" : String).data.head? = ("ilock:" ++ R).data.head? := by rw [h]
  have h3 : ("ilock:" ++ R).data.head? = some 'i' := rfl
  rw [h3] at h2
  exact absurd h2 (by decide)

theorem graph_out_ne_ilock (R : String) : ("jobs:graph:output" : String) ≠ "ilock:" ++ R := by
  intro h
  have h2 : ("jobs:graph:output" : String).data.head? = ("ilock:" ++ R).data.head? := by rw [h]
  have h3 : ("ilock:" ++ R).data.head? = some 'i' := rfl
  rw [h3] at h2
  exact absurd h2 (by decide)

theorem jobs_running_id_ne_olock (i R : String) :
    ("jobs:running:" ++ i : String) ≠ "olock:" ++ R := by
  intro h
  have h2 : ("jobs:running:" ++ i : String).data.head? = ("olock:" ++ R).data.head? := by rw [h]
  have h3 : ("olock:" ++ R).data.head? = some 'o' := rfl
  have h4 : ("jobs:running:" ++ i : String).data.head? = some 'j' := rfl
  rw [h3, h4] at h2
  exact absurd h2 (by decide)

theorem ilock_app_inj {x y : String} (h : ("ilock:" : String) ++ x = "ilock:" ++ y) : x = y :=
  str_app_cancel h

theorem olock_app_inj {x y : String} (h : ("olock:" : String) ++ x = "olock:" ++ y) : x = y :=
  str_app_cancel h

/-! ## C5: the auto-refresh worker's manager selection -/

/-- C5: the claim says each worker iteration with a non-empty registered set
selects the manager with the smallest non-none `last_refreshed`.  The code
instead assigns the timestamp itself to the selection variable (`job = ti`
where the index `i` was intended) and then evaluates `times[job]` /
`jobs[job]`, so as soon as at least one registered manager has a non-none
`last_refreshed` the iteration raises TypeError (float list index) instead
of selecting anything — with two running managers the comparison line
raises, and even with a single running manager the post-loop lookup does. -/
theorem c5_worker_select_type_error :
    autoRefreshPick [some 3, some 5] =
      .error "TypeError: list indices must be integers or slices, not float" ∧
    autoRefreshPick [some 3] =
      .error "TypeError: list indices must be integers or slices, not float" :=
  ⟨rfl, rfl⟩

/-! ## C6: the worker's exception handler -/

/-- C6: the claim says the worker's exception handler logs and completes so
the worker survives refresh exceptions.  The handler calls
`DEFAULT_LOGGER.execption(...)`, but the logger class only defines the
attributes `level`, `setLevel`, `getEffectiveLevel` and the six generated
log methods — `execption` is not among them (the correctly spelled
`exception` is), so the handler itself raises AttributeError and the worker
thread dies. -/
theorem c6_handler_attribute_error :
    workerHandleException =
      .error "AttributeError: BullshitLog instance has no attribute execption" ∧
    bullshitLogHasAttr "exception" = true ∧ bullshitLogHasAttr "execption" = false :=
  ⟨rfl, rfl, rfl⟩

/-! ## C7: `can_run` -/

/-- C7: the claim (and the function's own docstring) says `can_run` returns
the boolean ok flag of the probe.  The code returns the whole structured
result dict.  At the failing input below the probe's ok flag is false, yet
the returned value is the full error map, which as a non-empty dict is
truthy in Python — so a caller testing `if job.can_run()` always takes the
true branch. -/
theorem c7_can_run_returns_dict :
    (can_run "" ["x"] [] "me" true 0 emptyStore).1 =
      .fail [("input_missing", "x")] [] ∧
    resOk (can_run "" ["x"] [] "me" true 0 emptyStore).1 = false ∧
    resultTruthy (can_run "" ["x"] [] "me" true 0 emptyStore).1 = true := by
  refine ⟨by decide, rfl, rfl⟩

/-! ## C9: edge sanitization -/

theorem fixEdgeGo_no_digit : ∀ (b : Bool) (l : List Char), ∀ c ∈ fixEdgeGo b l, isDig c = false := by
  intro b l
  induction l generalizing b with
  | nil => intro c hc; cases b <;> simp [fixEdgeGo] at hc
  | cons d rest ih =>
    intro c hc
    cases b with
    | true =>
      by_cases hr : isRun d = true
      · rw [show fixEdgeGo true (d :: rest) = fixEdgeGo true rest by simp [fixEdgeGo, hr]] at hc
        exact ih true c hc
      · rw [show fixEdgeGo true (d :: rest) = d :: fixEdgeGo false rest by
            simp [fixEdgeGo, hr]] at hc
        rcases List.mem_cons.1 hc with h | h
        · subst h
          rcases Bool.or_eq_false_iff.1 (Bool.eq_false_iff.2 hr) with ⟨h1, _⟩
          exact h1
        · exact ih false c h
    | false =>
      by_cases hd : isDig d = true
      · rw [show fixEdgeGo false (d :: rest) = '*' :: fixEdgeGo true rest by
            simp [fixEdgeGo, hd]] at hc
        rcases List.mem_cons.1 hc with h | h
        · subst h; decide
        · exact ih true c h
      · rw [show fixEdgeGo false (d :: rest) = d :: fixEdgeGo false rest by
            simp [fixEdgeGo, hd]] at hc
        rcases List.mem_cons.1 hc with h | h
        · subst h; exact Bool.eq_false_iff.2 hd
        · exact ih false c h

theorem fixEdgeGo_id : ∀ l : List Char, (∀ c ∈ l, isDig c = false) → fixEdgeGo false l = l := by
  intro l
  induction l with
  | nil => intro _; rfl
  | cons d rest ih =>
    intro h
    have hd : isDig d = false := h d (List.mem_cons_self d rest)
    rw [show fixEdgeGo false (d :: rest) = d :: fixEdgeGo false rest by simp [fixEdgeGo, hd]]
    rw [ih (fun c hc => h c (List.mem_cons_of_mem d hc))]

/-- C9: the sanitizer maps "a.2024-01-05.b" to "a.*.b", and it is
idempotent: its output contains no digit, so a second pass changes
nothing. -/
theorem c9_sanitize_roundtrip_idempotent :
    fix_edge "a.2024-01-05.b" = "a.*.b" ∧ ∀ s : String, fix_edge (fix_edge s) = fix_edge s := by
  refine ⟨by decide, ?_⟩
  intro s
  exact congrArg String.mk (fixEdgeGo_id _ (fun c hc => fixEdgeGo_no_digit false s.data c hc))

/-! ## C10: constructing a manager with the default wait -/

/-- C10: `__init__` computes `max(wait, 0)`; with the default `wait=None`
this comparison between None and an int raises TypeError under Python 3, so
every construction that succeeds necessarily passed a numeric wait. -/
theorem c10_init_wait_none_type_error :
    (∀ (ins outs : List String) (d : Int) (ov gh : Bool) (base : String) (rnd : Nat),
      ResourceManager_init ins outs d PyV.pnone ov gh base rnd =
        .error "TypeError: not supported between instances of int and NoneType") ∧
    (∀ (ins outs : List String) (d : Int) (w : PyV) (ov gh : Bool) (base : String)
      (rnd : Nat) (st : RMInit),
      ResourceManager_init ins outs d w ov gh base rnd = .ok st → w ≠ PyV.pnone) := by
  constructor
  · intro ins outs d ov gh base rnd; rfl
  · intro ins outs d w ov gh base rnd st h hw
    subst hw
    simp [ResourceManager_init, pyMax0] at h

/-- Witness for C10: a concrete successful construction, obtained by
applying the theorem at `wait = 3`. -/
theorem c10_witness : (PyV.pnum 3 : PyV) ≠ PyV.pnone :=
  c10_init_wait_none_type_error.2 ["i"] ["o"] 5 (PyV.pnum 3) true true "b" 7
    ⟨["i"], ["o"], 5, 3, true, none, "b.7", true⟩ rfl

/-! ## C8: the wait-zero start loop -/

/-- C8 (amended): with `wait = 0` and a non-decreasing clock, the waiting
loop's entry test `time.time() < stop_waiting` is false at once (there is no
attempt before the loop), so a never-succeeding `start()` performs exactly
one acquire attempt — the single post-loop retry — before raising
ResourceUnavailable with that attempt's error map.  The claim's count of two
attempts is wrong. -/
theorem c8_wait_zero_single_attempt (clock : Nat → Int) (res : Nat → AcqResult) (fuel : Nat)
    (hmono : ∀ m n : Nat, m ≤ n → clock m ≤ clock n)
    (hfail : ∀ n, resOk (res n) = false) :
    startModel 0 clock res (fuel + 1) = ⟨1, false, errOf (res 0), false⟩ := by
  have h1 : ¬ (clock 2 < clock 1 + max (if (0 : Int) = 0 then 0 else 0) 0) := by
    have := hmono 1 2 (by norm_num)
    simp
    simpa using this
  unfold startModel startLoop
  rw [if_neg h1]
  unfold startFinal
  rw [hfail 0]

/-- Counterexample for C8 as stated: a concrete never-succeeding run with
`wait = 0` makes one attempt, not two. -/
theorem c8_counterexample :
    (startModel 0 (fun n => (n : Int)) (fun _ => .fail [("input_missing", "x")] []) 5).attempts
      = 1 ∧
    (startModel 0 (fun n => (n : Int)) (fun _ => .fail [("input_missing", "x")] []) 5).attempts
      ≠ 2 := by
  exact ⟨by decide, by decide⟩

/-- Witness for the amended C8 theorem at a concrete clock and result
oracle. -/
theorem c8_witness :
    startModel 0 (fun n => (n : Int)) (fun _ => .fail [("output_locked", "z")] []) 3 =
      ⟨1, false, [("output_locked", "z")], false⟩ :=
  c8_wait_zero_single_attempt (fun n => (n : Int)) (fun _ => .fail [("output_locked", "z")] []) 2
    (fun m n h => by show (m : Int) ≤ (n : Int); exact_mod_cast h) (fun n => rfl)


/-! ## Sorted-set association-list lemmas -/

theorem zscoreL_not_mem {l : List (String × Int)} {m : String} (h : m ∉ l.map Prod.fst) :
    zscoreL l m = none := by
  induction l with
  | nil => rfl
  | cons a t ih =>
    have h1 : ¬ (a.1 = m) := fun he => h (by rw [List.map_cons, he]; exact List.mem_cons_self _ _)
    have h2 : m ∉ t.map Prod.fst :=
      fun hm => h (by rw [List.map_cons]; exact List.mem_cons_of_mem _ hm)
    simp [zscoreL, h1, ih h2]

theorem keys_filter_sub {l : List (String × Int)} {p : String × Int → Bool} {m : String}
    (h : m ∉ l.map Prod.fst) : m ∉ (l.filter p).map Prod.fst := by
  intro hm
  apply h
  rcases List.mem_map.1 hm with ⟨x, hx, hxm⟩
  exact List.mem_map.2 ⟨x, List.mem_of_mem_filter hx, hxm⟩

theorem zscoreL_filter {l : List (String × Int)} (hnd : (l.map Prod.fst).Nodup)
    (p : String × Int → Bool) (m : String) :
    zscoreL (l.filter p) m =
      (zscoreL l m).bind (fun sc => if p (m, sc) then some sc else none) := by
  induction l with
  | nil => rfl
  | cons a t ih =>
    rw [List.map_cons] at hnd
    obtain ⟨hna, hndt⟩ := List.nodup_cons.1 hnd
    by_cases he : a.1 = m
    · rw [List.filter_cons]
      by_cases hp : p a = true
      · simp only [hp, if_pos]
        have hl : zscoreL (a :: t.filter p) m = some a.2 := by simp [zscoreL, he]
        have hr : zscoreL (a :: t) m = some a.2 := by simp [zscoreL, he]
        rw [hl, hr]
        have ha : (m, a.2) = a := by rw [← he]
        simp [ha, hp]
      · have hp2 : p a = false := Bool.eq_false_iff.2 hp
        simp only [hp2, Bool.false_eq_true, if_false]
        have hr : zscoreL (a :: t) m = some a.2 := by simp [zscoreL, he]
        rw [hr, zscoreL_not_mem (keys_filter_sub (he ▸ hna))]
        have ha : (m, a.2) = a := by rw [← he]
        simp [ha, hp2]
    · rw [List.filter_cons]
      have hr : zscoreL (a :: t) m = zscoreL t m := by simp [zscoreL, he]
      by_cases hp : p a = true
      · simp only [hp, if_pos]
        have hl : zscoreL (a :: t.filter p) m = zscoreL (t.filter p) m := by simp [zscoreL, he]
        rw [hl, hr]
        exact ih hndt
      · have hp2 : p a = false := Bool.eq_false_iff.2 hp
        simp only [hp2, Bool.false_eq_true, if_false]
        rw [hr]
        exact ih hndt

theorem nodup_filter_keys {l : List (String × Int)} (hnd : (l.map Prod.fst).Nodup)
    (p : String × Int → Bool) : ((l.filter p).map Prod.fst).Nodup :=
  hnd.sublist ((List.filter_sublist l).map Prod.fst)

/-! ## Store-level removal and frame lemmas -/

theorem zs_zremFilter (s : Store) (k : String) (keep : String × Int → Bool) (x : String) :
    (s.zremFilter k keep).zs x = if x = k then (s.zs k).filter keep else s.zs x := rfl

theorem str_zremFilter (s : Store) (k : String) (keep : String × Int → Bool) :
    (s.zremFilter k keep).str = s.str := rfl

theorem strTtl_zremFilter (s : Store) (k : String) (keep : String × Int → Bool) :
    (s.zremFilter k keep).strTtl = s.strTtl := rfl

theorem zttl_zremFilter (s : Store) (k : String) (keep : String × Int → Bool) (x : String) :
    (s.zremFilter k keep).zttl x =
      if x = k then (if (s.zs k).filter keep = [] then none else s.zttl x) else s.zttl x := rfl

theorem WF_zremFilter {s : Store} (hWF : s.WF) (k : String) (keep : String × Int → Bool) :
    (s.zremFilter k keep).WF := by
  intro x
  rw [zs_zremFilter]
  by_cases hx : x = k
  · rw [if_pos hx]; exact nodup_filter_keys (hWF k) keep
  · rw [if_neg hx]; exact hWF x

theorem expframe_refl (now : Int) (s : Store) : ExpFrame now s s :=
  ⟨fun _ => rfl, fun _ => rfl, fun _ _ => Or.inl rfl, fun _ => Or.inl rfl⟩

theorem expframe_trans {now : Int} {s1 s2 s3 : Store}
    (h12 : ExpFrame now s1 s2) (h23 : ExpFrame now s2 s3) : ExpFrame now s1 s3 := by
  obtain ⟨a12, b12, c12, d12⟩ := h12
  obtain ⟨a23, b23, c23, d23⟩ := h23
  refine ⟨fun k => (a23 k).trans (a12 k), fun k => (b23 k).trans (b12 k), ?_, ?_⟩
  · intro k m
    rcases c23 k m with h | ⟨h0, sc, hsc, hle⟩
    · rw [h]; exact c12 k m
    · rcases c12 k m with h2 | ⟨h20, sc2, hsc2, hle2⟩
      · exact Or.inr ⟨h0, sc, by rw [← h2]; exact hsc, hle⟩
      · rw [h20] at hsc; exact Option.noConfusion hsc
  · intro k
    rcases d23 k with h | h
    · rw [h]; exact d12 k
    · exact Or.inr h

theorem zscore_def (s : Store) (k m : String) : s.zscore k m = zscoreL (s.zs k) m := rfl

theorem zremrange_eq (s : Store) (k : String) (lo : Option Int) (hi : Int) :
    s.zremrange k lo hi = s.zremFilter k (fun p =>
      !((match lo with | none => true | some l => decide (l ≤ p.2)) && decide (p.2 ≤ hi))) := rfl

theorem expframe_zremrange {s : Store} (hWF : s.WF) (k : String) (lo : Option Int) (now : Int) :
    ExpFrame now s (s.zremrange k lo now) := by
  rw [zremrange_eq]
  refine ⟨fun x => rfl, fun x => rfl, ?_, ?_⟩
  · intro x m
    rw [zscore_def, zscore_def, zs_zremFilter]
    by_cases hx : x = k
    · subst hx
      rw [if_pos rfl, zscoreL_filter (hWF x)]
      cases hsc : zscoreL (s.zs x) m with
      | none => exact Or.inl rfl
      | some sc =>
        rcases lo with _ | l
        · by_cases hle : sc ≤ now
          · exact Or.inr ⟨by simp [hle], sc, rfl, hle⟩
          · left; simp [hle]
        · by_cases hl : l ≤ sc
          · by_cases hle : sc ≤ now
            · exact Or.inr ⟨by simp [hl, hle], sc, rfl, hle⟩
            · left; simp [hl, hle]
          · left; simp [hl]
    · rw [if_neg hx]; exact Or.inl rfl
  · intro x
    rw [zttl_zremFilter]
    by_cases hx : x = k
    · rw [if_pos hx]
      split
      · exact Or.inr rfl
      · subst hx; exact Or.inl rfl
    · rw [if_neg hx]; exact Or.inl rfl

theorem WF_zremrange {s : Store} (hWF : s.WF) (k : String) (lo : Option Int) (hi : Int) :
    (s.zremrange k lo hi).WF := by
  rw [zremrange_eq]; exact WF_zremFilter hWF _ _

/-! ## The checking phase only purges -/

theorem scanStep_s (pfx : String) (a : AcqArgs) (st : ScanSt) (kk : String) :
    (scanStep pfx a st kk).s = st.s.zremrange (pfx ++ "ilock:" ++ kk) (some 0) a.now := by
  unfold scanStep
  repeat first | rfl | (dsimp only) | split

theorem scan_frame (pfx : String) (a : AcqArgs) :
    ∀ (ks : List String) (st : ScanSt), st.s.WF →
      ExpFrame a.now st.s ((ks.foldl (scanStep pfx a) st).s) ∧
        ((ks.foldl (scanStep pfx a) st).s).WF := by
  intro ks
  induction ks with
  | nil => intro st hWF; exact ⟨expframe_refl _ _, hWF⟩
  | cons kk ks ih =>
    intro st hWF
    rw [List.foldl_cons]
    have hstep : (scanStep pfx a st kk).s =
        st.s.zremrange (pfx ++ "ilock:" ++ kk) (some 0) a.now := scanStep_s pfx a st kk
    have h1 : ExpFrame a.now st.s (scanStep pfx a st kk).s := by
      rw [hstep]; exact expframe_zremrange hWF _ _ _
    have hWF1 : (scanStep pfx a st kk).s.WF := by
      rw [hstep]; exact WF_zremrange hWF _ _ _
    obtain ⟨h2, hWF2⟩ := ih (scanStep pfx a st kk) hWF1
    exact ⟨expframe_trans h1 h2, hWF2⟩

theorem acquire_fail_state {pfx : String} {a : AcqArgs} {keys : List String} {s : Store}
    (h : isHardFail (acquireRes pfx a keys s).1 = true) :
    (acquireRes pfx a keys s).2 = (acqScan pfx a keys s).s := by
  unfold acquireRes at h ⊢
  by_cases hf : (acqScan pfx a keys s).fails = []
  · exfalso
    by_cases hd : a.duration = 0 <;> by_cases ht : (acqScan pfx a keys s).temps = [] <;>
      simp [hf, hd, ht, isHardFail] at h
  · simp [hf]

/-- C1 (amended): on any hard-failure outcome of the acquire script the only
observable state changes are the script's lazy purges: string keys (output
markers, output locks, running-job records) and their TTLs are untouched,
and every sorted-set entry is either unchanged or was expired (score at most
the script's `now`) and removed; a TTL of a sorted set can only disappear
(with its emptied set).  The claim's stronger statement that the state is
exactly unchanged fails because of those purges. -/
theorem c1_acquire_hard_fail_frame (pfx : String) (a : AcqArgs) (keys : List String) (s : Store)
    (hWF : s.WF) (h : isHardFail (acquireRes pfx a keys s).1 = true) :
    ExpFrame a.now s (acquireRes pfx a keys s).2 := by
  rw [acquire_fail_state h]
  unfold acqScan
  have h1 : ExpFrame a.now s (s.zremrange (pfx ++ "jobs:running") none a.now) :=
    expframe_zremrange hWF _ _ _
  have hWF1 : (s.zremrange (pfx ++ "jobs:running") none a.now).WF :=
    WF_zremrange hWF _ _ _
  exact expframe_trans h1
    (scan_frame pfx a keys ⟨s.zremrange (pfx ++ "jobs:running") none a.now, true, [], []⟩ hWF1).1

/-- Witness for the amended C1 theorem: a concrete hard-failing probe. -/
theorem c1_witness :
    ExpFrame 0 emptyStore (acquireRes "" ⟨"w", 0, 5, true, false, ["", ""]⟩ ["w", ""] emptyStore).2 :=
  c1_acquire_hard_fail_frame "" ⟨"w", 0, 5, true, false, ["", ""]⟩ ["w", ""] emptyStore
    (fun _ => List.nodup_nil) (by decide)

/-- Counterexample for C1 as stated: a hard-failing acquire against a store
holding an expired `jobs:running` entry removes that entry, so the store
state after the script differs from the state before it. -/
theorem c1_counterexample :
    isHardFail (acquireRes "" ⟨"a", 5, 10, true, false, ["", ""]⟩ ["x", ""]
      { emptyStore with zs := fun k => if k = "jobs:running" then [("stale", 3)] else [] }).1
      = true ∧
    (acquireRes "" ⟨"a", 5, 10, true, false, ["", ""]⟩ ["x", ""]
      { emptyStore with zs := fun k => if k = "jobs:running" then [("stale", 3)] else [] }).2.zscore
      "jobs:running" "stale" = none ∧
    ({ emptyStore with zs := fun k => if k = "jobs:running" then [("stale", 3)] else [] } :
      Store).zscore "jobs:running" "stale" = some 3 :=
  ⟨by decide, by decide, by decide⟩

/-! ## Per-key command machinery for the finish script -/

theorem cellCmds_nil (x : String) : cellCmds [] x = [] := rfl

theorem cellCmds_cons (k : String) (c : Cmd) (rest : List (String × Cmd)) (x : String) :
    cellCmds ((k, c) :: rest) x = if k = x then c :: cellCmds rest x else cellCmds rest x := by
  by_cases h : k = x <;> simp [cellCmds, List.filter_cons, h]

theorem cellCmds_append (l1 l2 : List (String × Cmd)) (x : String) :
    cellCmds (l1 ++ l2) x = cellCmds l1 x ++ cellCmds l2 x := by
  simp [cellCmds, List.filter_append]

theorem applyCell_append (id : String) (l1 l2 : List Cmd) (v : Option String × Option Int) :
    applyCell id (l1 ++ l2) v = applyCell id l2 (applyCell id l1 v) := by
  simp [applyCell, List.foldl_append]

theorem cellZCmds_nil (x : String) : cellZCmds [] x = [] := rfl

theorem cellZCmds_cons (k : String) (c : String × Int → Bool)
    (rest : List (String × (String × Int → Bool))) (x : String) :
    cellZCmds ((k, c) :: rest) x =
      if k = x then c :: cellZCmds rest x else cellZCmds rest x := by
  by_cases h : k = x <;> simp [cellZCmds, List.filter_cons, h]

theorem cellZCmds_append (l1 l2 : List (String × (String × Int → Bool))) (x : String) :
    cellZCmds (l1 ++ l2) x = cellZCmds l1 x ++ cellZCmds l2 x := by
  simp [cellZCmds, List.filter_append]

theorem applyZCell_append (l1 l2 : List (String × Int → Bool))
    (c : List (String × Int) × Option Int) :
    applyZCell (l1 ++ l2) c = applyZCell l2 (applyZCell l1 c) := by
  simp [applyZCell, List.foldl_append]

/-! ## Idempotence of the per-cell command interpretations -/

theorem stepCell_cdel_idem (id : String) (v : Option String × Option Int) :
    stepCell id (stepCell id v Cmd.cdel) Cmd.cdel = stepCell id v Cmd.cdel := by
  unfold stepCell
  by_cases h : v.1 = some id <;> simp [h]

theorem applyCell_all_cdel (id : String) :
    ∀ L : List Cmd, (∀ c ∈ L, c = Cmd.cdel) → ∀ v,
      applyCell id L v = if L = [] then v else stepCell id v Cmd.cdel := by
  intro L
  induction L with
  | nil => intro _ v; rfl
  | cons c L ih =>
    intro h v
    have hc : c = Cmd.cdel := h c (List.mem_cons_self _ _)
    subst hc
    rw [show applyCell id (Cmd.cdel :: L) v = applyCell id L (stepCell id v Cmd.cdel) from rfl]
    rw [ih (fun d hd => h d (List.mem_cons_of_mem _ hd))]
    by_cases hL : L = []
    · simp [hL]
    · simp [hL, stepCell_cdel_idem]

theorem applyCell_insensitive (id : String) :
    ∀ L : List Cmd, (∃ c ∈ L, c ≠ Cmd.cdel) → ∀ v w,
      applyCell id L v = applyCell id L w := by
  intro L
  induction L with
  | nil =>
    intro h
    rcases h with ⟨c, hc, _⟩
    exact absurd hc (List.not_mem_nil c)
  | cons c L ih =>
    intro h v w
    by_cases hc : c = Cmd.cdel
    · subst hc
      have h2 : ∃ d ∈ L, d ≠ Cmd.cdel := by
        rcases h with ⟨d, hd, hdne⟩
        rcases List.mem_cons.1 hd with he | he
        · exact absurd he hdne
        · exact ⟨d, he, hdne⟩
      exact ih h2 _ _
    · have hcv : stepCell id v c = stepCell id w c := by
        cases c with
        | cdel => exact absurd rfl hc
        | sets => rfl
        | dels => rfl
      rw [show applyCell id (c :: L) v = applyCell id L (stepCell id v c) from rfl,
        show applyCell id (c :: L) w = applyCell id L (stepCell id w c) from rfl, hcv]

theorem applyCell_idem (id : String) (L : List Cmd) (v : Option String × Option Int) :
    applyCell id L (applyCell id L v) = applyCell id L v := by
  by_cases hall : ∀ c ∈ L, c = Cmd.cdel
  · rw [applyCell_all_cdel id L hall v, applyCell_all_cdel id L hall]
    by_cases hL : L = []
    · simp [hL]
    · simp [hL, stepCell_cdel_idem]
  · push_neg at hall
    exact applyCell_insensitive id L hall _ _

theorem applyZCell_fst :
    ∀ (L : List (String × Int → Bool)) (c : List (String × Int) × Option Int),
      (applyZCell L c).1 = c.1.filter (fun e => L.all (fun p => p e)) := by
  intro L
  induction L with
  | nil => intro c; simp [applyZCell]
  | cons p L ih =>
    intro c
    rw [show applyZCell (p :: L) c = applyZCell L (zOp c p) from rfl, ih]
    show (c.1.filter p).filter _ = _
    rw [List.filter_filter]
    apply List.filter_congr
    intro a _
    simp [List.all_cons, Bool.and_comm]

theorem applyZCell_snd_cons :
    ∀ (L : List (String × Int → Bool)) (p : String × Int → Bool)
      (c : List (String × Int) × Option Int),
      (applyZCell (p :: L) c).2 =
        if (applyZCell (p :: L) c).1 = [] then none else c.2 := by
  intro L
  induction L with
  | nil => intro p c; rfl
  | cons q L ih =>
    intro p c
    rw [show applyZCell (p :: q :: L) c = applyZCell (q :: L) (zOp c p) from rfl, ih q (zOp c p)]
    by_cases he : (applyZCell (q :: L) (zOp c p)).1 = []
    · simp [he]
    · rw [if_neg he, if_neg he]
      have h1 : ¬ (List.filter p c.1 = []) := by
        intro h0
        apply he
        rw [applyZCell_fst]
        show (List.filter p c.1).filter _ = []
        rw [h0]
        rfl
      show (if List.filter p c.1 = [] then none else c.2) = c.2
      rw [if_neg h1]

theorem applyZCell_idem (L : List (String × Int → Bool)) (c : List (String × Int) × Option Int) :
    applyZCell L (applyZCell L c) = applyZCell L c := by
  have hfst : (applyZCell L (applyZCell L c)).1 = (applyZCell L c).1 := by
    rw [applyZCell_fst, applyZCell_fst, List.filter_filter]
    apply List.filter_congr
    intro a _
    simp
  have hsnd : (applyZCell L (applyZCell L c)).2 = (applyZCell L c).2 := by
    cases L with
    | nil => rfl
    | cons p L =>
      rw [applyZCell_snd_cons L p (applyZCell (p :: L) c), hfst]
      by_cases he : (applyZCell (p :: L) c).1 = []
      · rw [if_pos he, applyZCell_snd_cons L p c, if_pos he]
      · rw [if_neg he, applyZCell_snd_cons L p c, if_neg he]
  exact Prod.ext hfst hsnd

/-! ## Projection lemmas for the primitive store writes -/

theorem str_setStr (s : Store) (k v x : String) :
    (s.setStr k v).str x = if x = k then some v else s.str x := rfl

theorem strTtl_setStr (s : Store) (k v x : String) :
    (s.setStr k v).strTtl x = if x = k then none else s.strTtl x := rfl

theorem str_delStr (s : Store) (k x : String) :
    (s.delStr k).str x = if x = k then none else s.str x := rfl

theorem strTtl_delStr (s : Store) (k x : String) :
    (s.delStr k).strTtl x = if x = k then none else s.strTtl x := rfl

theorem str_setex (s : Store) (k : String) (t : Int) (v x : String) :
    (s.setex k t v).str x = if x = k then some v else s.str x := rfl

theorem strTtl_setex (s : Store) (k : String) (t : Int) (v x : String) :
    (s.setex k t v).strTtl x = if x = k then some t else s.strTtl x := rfl

/-! ## One-command cell lemmas -/

theorem cell_condDel (id : String) (s : Store) (olk x : String) :
    ((if s.str olk = some id then s.delStr olk else s).str x,
      (if s.str olk = some id then s.delStr olk else s).strTtl x) =
      applyCell id (cellCmds [(olk, Cmd.cdel)] x) (s.str x, s.strTtl x) := by
  rw [cellCmds_cons, cellCmds_nil]
  by_cases hox : olk = x
  · subst hox
    rw [if_pos rfl]
    show _ = stepCell id (s.str olk, s.strTtl olk) Cmd.cdel
    by_cases hd : s.str olk = some id
    · rw [if_pos hd]
      rw [show stepCell id (s.str olk, s.strTtl olk) Cmd.cdel = (none, none) from by
        simp [stepCell, hd]]
      rw [str_delStr, strTtl_delStr, if_pos rfl, if_pos rfl]
    · rw [if_neg hd]
      simp [stepCell, hd]
  · rw [if_neg hox]
    show _ = (s.str x, s.strTtl x)
    by_cases hd : s.str olk = some id
    · rw [if_pos hd, str_delStr, strTtl_delStr,
        if_neg (fun h => hox h.symm), if_neg (fun h => hox h.symm)]
    · rw [if_neg hd]

theorem cell_setStr (id : String) (s : Store) (mk x : String) :
    ((s.setStr mk id).str x, (s.setStr mk id).strTtl x) =
      applyCell id (cellCmds [(mk, Cmd.sets)] x) (s.str x, s.strTtl x) := by
  rw [cellCmds_cons, cellCmds_nil]
  by_cases h : mk = x
  · subst h
    rw [if_pos rfl]
    show _ = stepCell id (s.str mk, s.strTtl mk) Cmd.sets
    rw [str_setStr, strTtl_setStr, if_pos rfl, if_pos rfl]
    rfl
  · rw [if_neg h]
    show _ = (s.str x, s.strTtl x)
    rw [str_setStr, strTtl_setStr, if_neg (fun he => h he.symm), if_neg (fun he => h he.symm)]

theorem cell_delStr (id : String) (s : Store) (k x : String) :
    ((s.delStr k).str x, (s.delStr k).strTtl x) =
      applyCell id (cellCmds [(k, Cmd.dels)] x) (s.str x, s.strTtl x) := by
  rw [cellCmds_cons, cellCmds_nil]
  by_cases h : k = x
  · subst h
    rw [if_pos rfl]
    show _ = stepCell id (s.str k, s.strTtl k) Cmd.dels
    rw [str_delStr, strTtl_delStr, if_pos rfl, if_pos rfl]
    rfl
  · rw [if_neg h]
    show _ = (s.str x, s.strTtl x)
    rw [str_delStr, strTtl_delStr, if_neg (fun he => h he.symm), if_neg (fun he => h he.symm)]

theorem zs_zremFilter_eq (s : Store) (k : String) (p : String × Int → Bool) (x : String) :
    (s.zremFilter k p).zs x = if x = k then (s.zs k).filter p else s.zs x := rfl

theorem zttl_zremFilter_eq (s : Store) (k : String) (p : String × Int → Bool) (x : String) :
    (s.zremFilter k p).zttl x =
      if x = k then (if (s.zs k).filter p = [] then none else s.zttl x) else s.zttl x := rfl

theorem cell_zremFilter (s : Store) (k : String) (p : String × Int → Bool) (x : String) :
    ((s.zremFilter k p).zs x, (s.zremFilter k p).zttl x) =
      applyZCell (cellZCmds [(k, p)] x) (s.zs x, s.zttl x) := by
  rw [cellZCmds_cons, cellZCmds_nil]
  by_cases h : k = x
  · subst h
    rw [if_pos rfl, zs_zremFilter_eq, zttl_zremFilter_eq, if_pos rfl, if_pos rfl]
    rfl
  · rw [if_neg h, zs_zremFilter_eq, zttl_zremFilter_eq,
      if_neg (fun he => h he.symm), if_neg (fun he => h he.symm)]
    rfl

/-! ## The finish loop as per-cell commands -/

theorem fin_str_cell (pfx : String) (a : FinArgs) :
    ∀ (ks : List String) (flag : Bool) (s : Store) (x : String),
      (((ks.foldl (finStep pfx a) (s, flag)).1).str x,
        ((ks.foldl (finStep pfx a) (s, flag)).1).strTtl x) =
        applyCell a.id (cellCmds (finStrCmdsF pfx a flag ks) x) (s.str x, s.strTtl x) := by
  intro ks
  induction ks with
  | nil => intro flag s x; rfl
  | cons kk ks ih =>
    intro flag s x
    rw [List.foldl_cons]
    by_cases hkk : kk = ""
    · subst hkk
      rw [show finStep pfx a (s, flag) "" = (s, false) from by simp [finStep]]
      rw [show finStrCmdsF pfx a flag ("" :: ks) = finStrCmdsF pfx a false ks from by
        simp [finStrCmdsF]]
      exact ih false s x
    · cases flag with
      | true =>
        rw [show finStep pfx a (s, true) kk =
            ((s.zremrange (pfx ++ "ilock:" ++ kk) (some 0) a.now).zrem
              (pfx ++ "ilock:" ++ kk) a.id, true) from by simp [finStep, hkk]]
        rw [show finStrCmdsF pfx a true (kk :: ks) = finStrCmdsF pfx a true ks from by
          simp [finStrCmdsF, hkk]]
        exact ih true _ x
      | false =>
        rw [show finStep pfx a (s, false) kk =
            (if a.success then
               (if s.str (pfx ++ "olock:" ++ kk) = some a.id
                 then s.delStr (pfx ++ "olock:" ++ kk) else s).setStr (pfx ++ kk) a.id
             else
               (if s.str (pfx ++ "olock:" ++ kk) = some a.id
                 then s.delStr (pfx ++ "olock:" ++ kk) else s), false) from by
          by_cases hs : a.success <;> simp [finStep, hkk, hs]]
        rw [show finStrCmdsF pfx a false (kk :: ks) =
            ((pfx ++ "olock:" ++ kk, Cmd.cdel) ::
              (if a.success then [(pfx ++ kk, Cmd.sets)] else [])) ++
              finStrCmdsF pfx a false ks from by simp [finStrCmdsF, hkk]]
        rw [cellCmds_append, applyCell_append, cellCmds_cons]
        by_cases hs : a.success
        · rw [if_pos hs]
          rw [ih false _ x]
          have h1 := cell_condDel a.id s (pfx ++ "olock:" ++ kk) x
          rw [cellCmds_cons, cellCmds_nil] at h1
          have h2 := cell_setStr a.id
            (if s.str (pfx ++ "olock:" ++ kk) = some a.id
              then s.delStr (pfx ++ "olock:" ++ kk) else s) (pfx ++ kk) x
          rw [cellCmds_cons, cellCmds_nil] at h2
          rw [h2, h1]
          by_cases ho : pfx ++ "olock:" ++ kk = x <;> by_cases hm : pfx ++ kk = x <;>
            simp [ho, hm, hs, applyCell, cellCmds_cons, cellCmds_nil]
        · rw [if_neg hs]
          rw [ih false _ x]
          have h1 := cell_condDel a.id s (pfx ++ "olock:" ++ kk) x
          rw [cellCmds_cons, cellCmds_nil] at h1
          rw [h1]
          by_cases ho : pfx ++ "olock:" ++ kk = x <;>
            simp [ho, hs, applyCell, cellCmds_cons, cellCmds_nil]

theorem fin_z_cell (pfx : String) (a : FinArgs) :
    ∀ (ks : List String) (flag : Bool) (s : Store) (x : String),
      (((ks.foldl (finStep pfx a) (s, flag)).1).zs x,
        ((ks.foldl (finStep pfx a) (s, flag)).1).zttl x) =
        applyZCell (cellZCmds (finZCmdsF pfx a flag ks) x) (s.zs x, s.zttl x) := by
  intro ks
  induction ks with
  | nil => intro flag s x; rfl
  | cons kk ks ih =>
    intro flag s x
    rw [List.foldl_cons]
    by_cases hkk : kk = ""
    · subst hkk
      rw [show finStep pfx a (s, flag) "" = (s, false) from by simp [finStep]]
      rw [show finZCmdsF pfx a flag ("" :: ks) = finZCmdsF pfx a false ks from by
        simp [finZCmdsF]]
      exact ih false s x
    · cases flag with
      | true =>
        rw [show finStep pfx a (s, true) kk =
            ((s.zremrange (pfx ++ "ilock:" ++ kk) (some 0) a.now).zrem
              (pfx ++ "ilock:" ++ kk) a.id, true) from by simp [finStep, hkk]]
        rw [show finZCmdsF pfx a true (kk :: ks) =
            ((pfx ++ "ilock:" ++ kk, purgePred a.now) :: (pfx ++ "ilock:" ++ kk, remPred a.id) ::
              finZCmdsF pfx a true ks) from by simp [finZCmdsF, hkk]]
        rw [ih true _ x]
        rw [cellZCmds_cons, cellZCmds_cons]
        have h1 := cell_zremFilter s (pfx ++ "ilock:" ++ kk) (purgePred a.now) x
        rw [cellZCmds_cons, cellZCmds_nil] at h1
        have h2 := cell_zremFilter (s.zremrange (pfx ++ "ilock:" ++ kk) (some 0) a.now)
          (pfx ++ "ilock:" ++ kk) (remPred a.id) x
        rw [cellZCmds_cons, cellZCmds_nil] at h2
        have hzr : (s.zremrange (pfx ++ "ilock:" ++ kk) (some 0) a.now).zrem
            (pfx ++ "ilock:" ++ kk) a.id =
            (s.zremrange (pfx ++ "ilock:" ++ kk) (some 0) a.now).zremFilter
              (pfx ++ "ilock:" ++ kk) (remPred a.id) := rfl
        have hpg : s.zremrange (pfx ++ "ilock:" ++ kk) (some 0) a.now =
            s.zremFilter (pfx ++ "ilock:" ++ kk) (purgePred a.now) := rfl
        rw [hzr, h2, hpg, h1]
        by_cases hi : pfx ++ "ilock:" ++ kk = x <;> simp [hi, applyZCell]
      | false =>
        rw [show finStep pfx a (s, false) kk =
            (if a.success then
               (if s.str (pfx ++ "olock:" ++ kk) = some a.id
                 then s.delStr (pfx ++ "olock:" ++ kk) else s).setStr (pfx ++ kk) a.id
             else
               (if s.str (pfx ++ "olock:" ++ kk) = some a.id
                 then s.delStr (pfx ++ "olock:" ++ kk) else s), false) from by
          by_cases hs : a.success <;> simp [finStep, hkk, hs]]
        rw [show finZCmdsF pfx a false (kk :: ks) = finZCmdsF pfx a false ks from by
          simp [finZCmdsF, hkk]]
        have hzs : ∀ t : Store,
            ((if a.success then
               (if t.str (pfx ++ "olock:" ++ kk) = some a.id
                 then t.delStr (pfx ++ "olock:" ++ kk) else t).setStr (pfx ++ kk) a.id
              else
               (if t.str (pfx ++ "olock:" ++ kk) = some a.id
                 then t.delStr (pfx ++ "olock:" ++ kk) else t)) : Store).zs = t.zs := by
          intro t
          by_cases hs : a.success <;> by_cases hd : t.str (pfx ++ "olock:" ++ kk) = some a.id <;>
            simp [hs, hd] <;> rfl
        have hzttl : ∀ t : Store,
            ((if a.success then
               (if t.str (pfx ++ "olock:" ++ kk) = some a.id
                 then t.delStr (pfx ++ "olock:" ++ kk) else t).setStr (pfx ++ kk) a.id
              else
               (if t.str (pfx ++ "olock:" ++ kk) = some a.id
                 then t.delStr (pfx ++ "olock:" ++ kk) else t)) : Store).zttl = t.zttl := by
          intro t
          by_cases hs : a.success <;> by_cases hd : t.str (pfx ++ "olock:" ++ kk) = some a.id <;>
            simp [hs, hd] <;> rfl
        rw [ih false _ x, hzs s, hzttl s]

/-! ## The whole finish script as per-cell commands -/

theorem finish_str_cell (pfx : String) (a : FinArgs) (keys : List String) (s : Store)
    (x : String) :
    ((finishScript pfx a keys s).str x, (finishScript pfx a keys s).strTtl x) =
      applyCell a.id (cellCmds (finStrCmds pfx a keys) x) (s.str x, s.strTtl x) := by
  unfold finishScript finStrCmds
  rw [cellCmds_append, applyCell_append, ← fin_str_cell pfx a keys true s x]
  have hzrem : ∀ t : Store, (t.zrem (pfx ++ "jobs:running") a.id).str = t.str := fun t => rfl
  have hzrem2 : ∀ t : Store, (t.zrem (pfx ++ "jobs:running") a.id).strTtl = t.strTtl :=
    fun t => rfl
  have h1 := cell_delStr a.id
    (((keys.foldl (finStep pfx a) (s, true)).1).zrem (pfx ++ "jobs:running") a.id)
    (pfx ++ "jobs:running:" ++ a.id) x
  rw [hzrem, hzrem2] at h1
  exact h1

theorem finish_z_cell (pfx : String) (a : FinArgs) (keys : List String) (s : Store)
    (x : String) :
    ((finishScript pfx a keys s).zs x, (finishScript pfx a keys s).zttl x) =
      applyZCell (cellZCmds (finZCmds pfx a keys) x) (s.zs x, s.zttl x) := by
  unfold finishScript finZCmds
  rw [cellZCmds_append, applyZCell_append, ← fin_z_cell pfx a keys true s x]
  have hdel : ∀ t : Store, (t.delStr (pfx ++ "jobs:running:" ++ a.id)).zs = t.zs := fun t => rfl
  have hdel2 : ∀ t : Store, (t.delStr (pfx ++ "jobs:running:" ++ a.id)).zttl = t.zttl :=
    fun t => rfl
  have h1 := cell_zremFilter ((keys.foldl (finStep pfx a) (s, true)).1)
    (pfx ++ "jobs:running") (remPred a.id) x
  rw [hdel, hdel2]
  exact h1

theorem store_eq_of_fields {s1 s2 : Store} (h1 : s1.str = s2.str) (h2 : s1.strTtl = s2.strTtl)
    (h3 : s1.zs = s2.zs) (h4 : s1.zttl = s2.zttl) : s1 = s2 := by
  cases s1; cases s2
  cases h1; cases h2; cases h3; cases h4
  rfl

/-- C4: the finish script is idempotent — for every store state and fixed
argument tuple, running finish twice yields exactly the state of running it
once.  String keys see, per key, a sequence of conditional olock deletes,
fixed marker writes and the running-record delete, whose composition is
idempotent; sorted sets see only member filters, whose composition is a
single filter and hence idempotent, and whose TTLs disappear exactly when
the set empties. -/
theorem c4_finish_idempotent (pfx : String) (a : FinArgs) (keys : List String) (s : Store) :
    finishScript pfx a keys (finishScript pfx a keys s) = finishScript pfx a keys s := by
  have hstr : ∀ x : String,
      ((finishScript pfx a keys (finishScript pfx a keys s)).str x,
        (finishScript pfx a keys (finishScript pfx a keys s)).strTtl x) =
      ((finishScript pfx a keys s).str x, (finishScript pfx a keys s).strTtl x) := by
    intro x
    rw [finish_str_cell pfx a keys (finishScript pfx a keys s) x,
      finish_str_cell pfx a keys s x, applyCell_idem, ← finish_str_cell pfx a keys s x]
  have hz : ∀ x : String,
      ((finishScript pfx a keys (finishScript pfx a keys s)).zs x,
        (finishScript pfx a keys (finishScript pfx a keys s)).zttl x) =
      ((finishScript pfx a keys s).zs x, (finishScript pfx a keys s).zttl x) := by
    intro x
    rw [finish_z_cell pfx a keys (finishScript pfx a keys s) x,
      finish_z_cell pfx a keys s x, applyZCell_idem, ← finish_z_cell pfx a keys s x]
  apply store_eq_of_fields
  · funext x; exact congrArg Prod.fst (hstr x)
  · funext x; exact congrArg Prod.snd (hstr x)
  · funext x; exact congrArg Prod.fst (hz x)
  · funext x; exact congrArg Prod.snd (hz x)

/-! ## Splitting a key list at the sentinel -/

theorem outsPartF_nil (flag : Bool) : outsPartF flag [] = [] := by cases flag <;> rfl

theorem outsPartF_sentinel (ks : List String) :
    outsPartF true ("" :: ks) = outsPartF false ks := by
  simp [outsPartF, List.dropWhile_cons, List.filter_cons]

theorem outsPartF_false_sentinel (ks : List String) :
    outsPartF false ("" :: ks) = outsPartF false ks := by
  simp [outsPartF, List.filter_cons]

theorem outsPartF_true_cons (kk : String) (ks : List String) (h : kk ≠ "") :
    outsPartF true (kk :: ks) = outsPartF true ks := by
  simp [outsPartF, List.dropWhile_cons, h]

theorem outsPartF_false_cons (kk : String) (ks : List String) (h : kk ≠ "") :
    outsPartF false (kk :: ks) = kk :: outsPartF false ks := by
  simp [outsPartF, List.filter_cons, h]

theorem outsPartF_no_sentinel (l : List String) (h : "" ∉ l) : outsPartF false l = l := by
  induction l with
  | nil => rfl
  | cons kk ks ih =>
    have hk : kk ≠ "" := fun he => h (by rw [he]; exact List.mem_cons_self _ _)
    rw [outsPartF_false_cons kk ks hk, ih (fun hm => h (List.mem_cons_of_mem _ hm))]

theorem outsPart_structured (ins outs : List String) (hins : "" ∉ ins) (houts : "" ∉ outs) :
    outsPartF true (ins ++ "" :: outs) = outs := by
  induction ins with
  | nil => rw [List.nil_append, outsPartF_sentinel, outsPartF_no_sentinel outs houts]
  | cons i ins ih =>
    have hi : i ≠ "" := fun he => hins (by rw [he]; exact List.mem_cons_self _ _)
    rw [List.cons_append, outsPartF_true_cons _ _ hi]
    exact ih (fun hm => hins (List.mem_cons_of_mem _ hm))

/-! ## The finish commands aimed at a clean marker key -/

theorem cellCmds_marker (pfx : String) (a : FinArgs) (R : String) (hR : cleanKey R = true) :
    ∀ (ks : List String) (flag : Bool),
      cellCmds (finStrCmdsF pfx a flag ks) (pfx ++ R) =
        if a.success then List.replicate ((outsPartF flag ks).count R) Cmd.sets else [] := by
  intro ks
  induction ks with
  | nil =>
    intro flag
    rw [outsPartF_nil]
    by_cases hs : a.success <;> simp [hs, finStrCmdsF, cellCmds_nil]
  | cons kk ks ih =>
    intro flag
    by_cases hkk : kk = ""
    · subst hkk
      rw [show finStrCmdsF pfx a flag ("" :: ks) = finStrCmdsF pfx a false ks from by
        simp [finStrCmdsF]]
      cases flag with
      | true => rw [outsPartF_sentinel]; exact ih false
      | false => rw [outsPartF_false_sentinel]; exact ih false
    · cases flag with
      | true =>
        rw [show finStrCmdsF pfx a true (kk :: ks) = finStrCmdsF pfx a true ks from by
          simp [finStrCmdsF, hkk]]
        rw [outsPartF_true_cons kk ks hkk]
        exact ih true
      | false =>
        rw [show finStrCmdsF pfx a false (kk :: ks) =
            ((pfx ++ "olock:" ++ kk, Cmd.cdel) ::
              (if a.success then [(pfx ++ kk, Cmd.sets)] else [])) ++
              finStrCmdsF pfx a false ks from by simp [finStrCmdsF, hkk]]
        rw [cellCmds_append, cellCmds_cons]
        have hno : ¬ (pfx ++ "olock:" ++ kk = pfx ++ R) := by
          intro he
          rw [str_app_assoc] at he
          exact clean_not_olock hR kk (str_app_cancel he).symm
        rw [if_neg hno, outsPartF_false_cons kk ks hkk, ih false]
        by_cases hs : a.success
        · rw [if_pos hs, if_pos hs, if_pos hs]
          rw [cellCmds_cons, cellCmds_nil]
          by_cases hm : pfx ++ kk = pfx ++ R
          · have hkr : kk = R := str_app_cancel hm
            rw [if_pos hm, List.count_cons, if_pos (by rw [hkr]; exact beq_self_eq_true R)]
            rw [List.replicate_succ]
            rfl
          · have hkr : ¬ (kk = R) := fun he => hm (by rw [he])
            rw [if_neg hm, List.count_cons, if_neg (by simpa using hkr)]
            simp
        · rw [if_neg hs, if_neg hs, if_neg hs]
          rfl

theorem applyCell_replicate_sets (id : String) :
    ∀ (n : Nat) (v : Option String × Option Int),
      applyCell id (List.replicate n Cmd.sets) v = if n = 0 then v else (some id, none) := by
  intro n
  induction n with
  | zero => intro v; rfl
  | succ n ih =>
    intro v
    rw [List.replicate_succ]
    rw [show applyCell id (Cmd.sets :: List.replicate n Cmd.sets) v =
      applyCell id (List.replicate n Cmd.sets) (some id, none) from rfl]
    rw [ih]
    by_cases hn : n = 0 <;> simp [hn]

/-! ## C3: markers written by the finish script -/

/-- C3: for a finish over declared inputs and outputs (sentinel-separated,
with reserved-namespace-free names): on success the output markers afterwards
are exactly the prior markers plus one marker per declared output holding the
finishing identifier; on failure no marker changes.  Stated for every
reserved-namespace-free resource name R, covering all declared outputs and
all other markers at once. -/
theorem c3_finish_markers (pfx : String) (ins outs : List String) (id : String) (now : Int)
    (succ : Bool) (s : Store)
    (hins : "" ∉ ins) (houts : "" ∉ outs) (hclean : ∀ kk ∈ outs, cleanKey kk = true) :
    ∀ R : String, cleanKey R = true →
      (finishScript pfx ⟨id, now, succ⟩ (ins ++ [""] ++ outs) s).str (pfx ++ R) =
        if succ ∧ R ∈ outs then some id else s.str (pfx ++ R) := by
  intro R hR
  rw [show ins ++ [""] ++ outs = ins ++ "" :: outs from by
    rw [List.append_assoc, List.singleton_append]]
  have hp := finish_str_cell pfx ⟨id, now, succ⟩ (ins ++ "" :: outs) s (pfx ++ R)
  have hfst := congrArg Prod.fst hp
  dsimp only at hfst
  unfold finStrCmds at hfst
  rw [cellCmds_append] at hfst
  rw [cellCmds_marker pfx ⟨id, now, succ⟩ R hR (ins ++ "" :: outs) true] at hfst
  dsimp only at hfst
  have hne : ¬ (pfx ++ "jobs:running:" ++ id = pfx ++ R) := by
    intro he
    rw [str_app_assoc] at he
    exact clean_not_jobs_running_id R hR id (str_app_cancel he).symm
  rw [cellCmds_cons, cellCmds_nil, if_neg hne, List.append_nil] at hfst
  rw [outsPart_structured ins outs hins houts] at hfst
  by_cases hs : succ = true
  · by_cases hmem : R ∈ outs
    · have hc : ¬ (outs.count R = 0) := fun h0 => (List.count_eq_zero.1 h0) hmem
      rw [if_pos hs, applyCell_replicate_sets, if_neg hc] at hfst
      dsimp only at hfst
      rw [hfst, if_pos ⟨hs, hmem⟩]
    · have hc : outs.count R = 0 := List.count_eq_zero.2 hmem
      rw [if_pos hs, hc, applyCell_replicate_sets, if_pos rfl] at hfst
      dsimp only at hfst
      rw [hfst, if_neg (fun hc2 => hmem hc2.2)]
  · rw [if_neg hs] at hfst
    dsimp only [applyCell, List.foldl] at hfst
    rw [hfst, if_neg (fun hc2 => hs hc2.1)]

/-- Witness for C3 at a concrete finish: producing output "x" writes its
marker with the job identifier. -/
theorem c3_witness :
    (finishScript "" ⟨"j", 0, true⟩ (["a"] ++ [""] ++ ["x"]) emptyStore).str ("" ++ "x") =
      if true ∧ "x" ∈ ["x"] then some "j" else emptyStore.str ("" ++ "x") :=
  c3_finish_markers "" ["a"] ["x"] "j" 0 true emptyStore (by decide) (by decide) (by decide)
    "x" (by decide)

/-! ## ZADD lemmas -/

theorem zscoreL_append_single_self {l : List (String × Int)} {m : String} (sc : Int)
    (h : m ∉ l.map Prod.fst) : zscoreL (l ++ [(m, sc)]) m = some sc := by
  induction l with
  | nil => simp [zscoreL]
  | cons a t ih =>
    have h1 : ¬ (a.1 = m) := fun he => h (by rw [List.map_cons, he]; exact List.mem_cons_self _ _)
    rw [List.cons_append]
    rw [show zscoreL (a :: (t ++ [(m, sc)])) m = zscoreL (t ++ [(m, sc)]) m from by
      simp [zscoreL, h1]]
    exact ih (fun hm => h (by rw [List.map_cons]; exact List.mem_cons_of_mem _ hm))

theorem zscoreL_append_single_other {l : List (String × Int)} {m m' : String} (sc : Int)
    (h : m' ≠ m) : zscoreL (l ++ [(m, sc)]) m' = zscoreL l m' := by
  induction l with
  | nil => simp [zscoreL, Ne.symm h]
  | cons a t ih =>
    rw [List.cons_append]
    by_cases ha : a.1 = m'
    · simp [zscoreL, ha]
    · rw [show zscoreL (a :: (t ++ [(m, sc)])) m' = zscoreL (t ++ [(m, sc)]) m' from by
        simp [zscoreL, ha]]
      rw [show zscoreL (a :: t) m' = zscoreL t m' from by simp [zscoreL, ha]]
      exact ih

theorem zscoreL_mapped_self {l : List (String × Int)} {m : String} (sc : Int)
    (h : l.any (fun p => p.1 == m) = true) :
    zscoreL (l.map (fun p => if p.1 == m then (m, sc) else p)) m = some sc := by
  induction l with
  | nil => simp at h
  | cons a t ih =>
    rw [List.map_cons]
    by_cases ha : a.1 = m
    · rw [show ((if a.1 == m then (m, sc) else a) : String × Int) = (m, sc) from by
        simp [ha]]
      simp [zscoreL]
    · rw [show ((if a.1 == m then (m, sc) else a) : String × Int) = a from by simp [ha]]
      rw [show zscoreL (a :: t.map (fun p => if p.1 == m then (m, sc) else p)) m =
        zscoreL (t.map (fun p => if p.1 == m then (m, sc) else p)) m from by
        simp [zscoreL, ha]]
      apply ih
      rcases List.any_eq_true.1 h with ⟨x, hx, hxm⟩
      rcases List.mem_cons.1 hx with he | he
      · exact absurd (by rw [← he]; exact beq_iff_eq.1 hxm) ha
      · exact List.any_eq_true.2 ⟨x, he, hxm⟩

theorem zscoreL_mapped_other {l : List (String × Int)} {m m' : String} (sc : Int)
    (h : m' ≠ m) :
    zscoreL (l.map (fun p => if p.1 == m then (m, sc) else p)) m' = zscoreL l m' := by
  induction l with
  | nil => rfl
  | cons a t ih =>
    rw [List.map_cons]
    by_cases ha : a.1 = m
    · rw [show ((if a.1 == m then (m, sc) else a) : String × Int) = (m, sc) from by simp [ha]]
      have hne1 : ¬ (m = m') := Ne.symm h
      have hne2 : ¬ (a.1 = m') := fun he => h (by rw [← he, ha])
      rw [show zscoreL ((m, sc) :: t.map (fun p => if p.1 == m then (m, sc) else p)) m' =
        zscoreL (t.map (fun p => if p.1 == m then (m, sc) else p)) m' from by
        simp [zscoreL, hne1]]
      rw [show zscoreL (a :: t) m' = zscoreL t m' from by simp [zscoreL, hne2]]
      exact ih
    · rw [show ((if a.1 == m then (m, sc) else a) : String × Int) = a from by simp [ha]]
      by_cases ha' : a.1 = m'
      · simp [zscoreL, ha']
      · rw [show zscoreL (a :: t.map (fun p => if p.1 == m then (m, sc) else p)) m' =
          zscoreL (t.map (fun p => if p.1 == m then (m, sc) else p)) m' from by
          simp [zscoreL, ha']]
        rw [show zscoreL (a :: t) m' = zscoreL t m' from by simp [zscoreL, ha']]
        exact ih

theorem zscoreL_zaddL (l : List (String × Int)) (m : String) (sc : Int) (m' : String) :
    zscoreL (Store.zaddL l m sc) m' = if m' = m then some sc else zscoreL l m' := by
  unfold Store.zaddL
  by_cases hany : l.any (fun p => p.1 == m) = true
  · rw [if_pos hany]
    by_cases hm : m' = m
    · subst hm; rw [if_pos rfl]; exact zscoreL_mapped_self sc hany
    · rw [if_neg hm]; exact zscoreL_mapped_other sc hm
  · rw [if_neg hany]
    by_cases hm : m' = m
    · subst hm
      rw [if_pos rfl]
      apply zscoreL_append_single_self
      intro hmem
      apply hany
      rcases List.mem_map.1 hmem with ⟨x, hx, hxm⟩
      exact List.any_eq_true.2 ⟨x, hx, beq_iff_eq.2 hxm⟩
    · rw [if_neg hm]; exact zscoreL_append_single_other sc hm

theorem zs_zadd (s : Store) (k : String) (sc : Int) (m : String) (x : String) :
    (s.zadd k sc m).zs x = if x = k then Store.zaddL (s.zs k) m sc else s.zs x := rfl

theorem zadd_zscore (s : Store) (k : String) (sc : Int) (m x m' : String) :
    (s.zadd k sc m).zscore x m' =
      if x = k then (if m' = m then some sc else s.zscore k m') else s.zscore x m' := by
  rw [Store.zscore, zs_zadd]
  by_cases hx : x = k
  · rw [if_pos hx, if_pos hx, zscoreL_zaddL]
    rfl
  · rw [if_neg hx, if_neg hx]
    rfl

theorem zaddL_keys_nodup {l : List (String × Int)} (h : (l.map Prod.fst).Nodup)
    (m : String) (sc : Int) : ((Store.zaddL l m sc).map Prod.fst).Nodup := by
  unfold Store.zaddL
  by_cases hany : l.any (fun p => p.1 == m) = true
  · rw [if_pos hany]
    have : (l.map (fun p => if p.1 == m then (m, sc) else p)).map Prod.fst = l.map Prod.fst := by
      rw [List.map_map]
      apply List.map_congr_left
      intro a _
      by_cases ha : a.1 = m
      · simp [ha]
      · simp [ha]
    rw [this]
    exact h
  · rw [if_neg hany]
    rw [List.map_append]
    rw [List.nodup_append]
    refine ⟨h, by simp, ?_⟩
    intro y hy hy2
    have hym : y = m := by simpa using hy2
    apply hany
    subst hym
    rcases List.mem_map.1 hy with ⟨x, hx, hxm⟩
    exact List.any_eq_true.2 ⟨x, hx, beq_iff_eq.2 hxm⟩

theorem WF_zadd {s : Store} (hWF : s.WF) (k : String) (sc : Int) (m : String) :
    (s.zadd k sc m).WF := by
  intro x
  rw [zs_zadd]
  by_cases hx : x = k
  · rw [if_pos hx]; exact zaddL_keys_nodup (hWF k) m sc
  · rw [if_neg hx]; exact hWF x

theorem WF_str_only {s t : Store} (hzs : t.zs = s.zs) (hWF : s.WF) : t.WF := by
  intro x; rw [hzs]; exact hWF x

/-! ## Splitting the input part -/

theorem insPartF_nil (flag : Bool) : insPartF flag [] = [] := by cases flag <;> rfl

theorem insPartF_false (ks : List String) : insPartF false ks = [] := rfl

theorem insPartF_sentinel (ks : List String) : insPartF true ("" :: ks) = [] := by
  simp [insPartF, List.takeWhile]

theorem insPartF_true_cons (kk : String) (ks : List String) (h : kk ≠ "") :
    insPartF true (kk :: ks) = kk :: insPartF true ks := by
  simp [insPartF, List.takeWhile_cons, h]

/-! ## Checking-phase branch analysis -/

theorem scanStep_fails_ext (pfx : String) (a : AcqArgs) (st : ScanSt) (kk : String) :
    ∃ tl, (scanStep pfx a st kk).fails = st.fails ++ tl := by
  unfold scanStep
  dsimp only
  repeat first | (exact ⟨[], (List.append_nil _).symm⟩) | (refine ⟨_, rfl⟩) | split

theorem scan_fails_ext (pfx : String) (a : AcqArgs) :
    ∀ (ks : List String) (st : ScanSt),
      ∃ tl, (ks.foldl (scanStep pfx a) st).fails = st.fails ++ tl := by
  intro ks
  induction ks with
  | nil => intro st; exact ⟨[], (List.append_nil _).symm⟩
  | cons kk ks ih =>
    intro st
    rw [List.foldl_cons]
    rcases ih (scanStep pfx a st kk) with ⟨tl2, h2⟩
    rcases scanStep_fails_ext pfx a st kk with ⟨tl1, h1⟩
    exact ⟨tl1 ++ tl2, by rw [h2, h1, List.append_assoc]⟩

theorem fails_eq_step (pfx : String) (a : AcqArgs) (ks : List String) (st : ScanSt) (kk : String)
    (h : (ks.foldl (scanStep pfx a) (scanStep pfx a st kk)).fails = st.fails) :
    (scanStep pfx a st kk).fails = st.fails := by
  rcases scanStep_fails_ext pfx a st kk with ⟨tl1, h1⟩
  rcases scan_fails_ext pfx a ks (scanStep pfx a st kk) with ⟨tl2, h2⟩
  rw [h1] at h2
  rw [h2, List.append_assoc] at h
  have h3 : tl1 ++ tl2 = [] := by
    have := List.append_cancel_left (h.trans (List.append_nil st.fails).symm)
    exact this
  have h4 : tl1 = [] := (List.append_eq_nil.1 h3).1
  rw [h1, h4, List.append_nil]

theorem scanStep_str (pfx : String) (a : AcqArgs) (st : ScanSt) (kk : String) :
    (scanStep pfx a st kk).s.str = st.s.str := by
  rw [scanStep_s]
  rfl

theorem scan_str_const (pfx : String) (a : AcqArgs) :
    ∀ (ks : List String) (st : ScanSt), ((ks.foldl (scanStep pfx a) st).s).str = st.s.str := by
  intro ks
  induction ks with
  | nil => intro st; rfl
  | cons kk ks ih =>
    intro st
    rw [List.foldl_cons, ih (scanStep pfx a st kk), scanStep_str]

theorem scanStep_isInput (pfx : String) (a : AcqArgs) (st : ScanSt) (kk : String) :
    (scanStep pfx a st kk).isInput = if kk = "" then false else st.isInput := by
  by_cases hkk : kk = ""
  · rw [if_pos hkk]
    subst hkk
    unfold scanStep
    dsimp only
    rw [if_pos rfl]
  · rw [if_neg hkk]
    unfold scanStep
    dsimp only
    rw [if_neg hkk]
    repeat first | rfl | split

theorem scan_zs_empty_mono (pfx : String) (a : AcqArgs) :
    ∀ (ks : List String) (st : ScanSt) (k : String),
      st.s.zs k = [] → ((ks.foldl (scanStep pfx a) st).s).zs k = [] := by
  intro ks
  induction ks with
  | nil => intro st k h; exact h
  | cons kk ks ih =>
    intro st k h
    rw [List.foldl_cons]
    apply ih
    rw [scanStep_s]
    show (if k = pfx ++ "ilock:" ++ kk then _ else st.s.zs k) = []
    by_cases hk : k = pfx ++ "ilock:" ++ kk
    · rw [if_pos hk]
      subst hk
      rw [h]
      rfl
    · rw [if_neg hk]
      exact h

theorem scanStep_input_olock (pfx : String) (a : AcqArgs) (st : ScanSt) (kk : String)
    (hkk : kk ≠ "") (hflag : st.isInput = true)
    (hfail : (scanStep pfx a st kk).fails = st.fails) :
    olockOtherB pfx a st.s kk = false := by
  rcases Bool.eq_false_or_eq_true (olockOtherB pfx a st.s kk) with h | h
  swap
  · exact h
  · exfalso
    have hext : ∃ f, (scanStep pfx a st kk).fails = st.fails ++ [f] := by
      unfold scanStep
      dsimp only
      rw [if_neg hkk, hflag]
      rw [if_pos rfl, if_pos (by rw [h]; rfl)]
      by_cases hr : a.refresh = true <;> simp [hr]
    rcases hext with ⟨f, hf⟩
    rw [hf] at hfail
    simp at hfail

theorem scanStep_out_checks (pfx : String) (a : AcqArgs) (st : ScanSt) (kk : String)
    (hkk : kk ≠ "") (hflag : st.isInput = false)
    (hfail : (scanStep pfx a st kk).fails = st.fails) :
    olockOtherB pfx a st.s kk = false ∧
      (scanStep pfx a st kk).s.zs (pfx ++ "ilock:" ++ kk) = [] := by
  have hextF : ∀ f : Failure, (scanStep pfx a st kk).fails = st.fails ++ [f] → False := by
    intro f hf
    rw [hf] at hfail
    simp at hfail
  by_cases hexo : ((st.s.str (pfx ++ kk)).isSome && !a.overwrite) = true
  · exfalso
    apply hextF ("output_exists", kk)
    unfold scanStep
    dsimp only
    rw [if_neg hkk, hflag]
    rw [if_neg (by simp), if_pos hexo]
  · have hol : olockOtherB pfx a st.s kk = false := by
      rcases Bool.eq_false_or_eq_true (olockOtherB pfx a st.s kk) with h | h
      swap
      · exact h
      · exfalso
        apply hextF ("output_locked", kk)
        unfold scanStep
        dsimp only
        rw [if_neg hkk, hflag]
        rw [if_neg (by simp), if_neg hexo, if_pos (by rw [h])]
    refine ⟨hol, ?_⟩
    by_cases hemp : (st.s.zremrange (pfx ++ "ilock:" ++ kk) (some 0) a.now).zs
        (pfx ++ "ilock:" ++ kk) = []
    · rw [scanStep_s]
      exact hemp
    · exfalso
      have hne : ((st.s.zremrange (pfx ++ "ilock:" ++ kk) (some 0) a.now).zs
          (pfx ++ "ilock:" ++ kk)).isEmpty = false := by
        rcases hl : (st.s.zremrange (pfx ++ "ilock:" ++ kk) (some 0) a.now).zs
            (pfx ++ "ilock:" ++ kk) with _ | ⟨x, xs⟩
        · exact absurd hl hemp
        · rfl
      apply hextF ("output_used", kk)
      unfold scanStep
      dsimp only
      rw [if_neg hkk, hflag]
      rw [if_neg (by simp), if_neg hexo, if_neg (by rw [hol]; simp), if_pos (by rw [hne]; rfl)]

theorem olockOtherB_false_val {pfx : String} {a : AcqArgs} {s : Store} {kk v : String}
    (h : olockOtherB pfx a s kk = false)
    (hv : s.str (pfx ++ "olock:" ++ kk) = some v) : v = a.id := by
  unfold olockOtherB at h
  rw [hv] at h
  simpa using h

theorem scan_ok (pfx : String) (a : AcqArgs) :
    ∀ (ks : List String) (st : ScanSt),
      ((ks.foldl (scanStep pfx a) st).fails = st.fails) →
      (∀ kk ∈ insPartF st.isInput ks, olockOtherB pfx a st.s kk = false) ∧
      (∀ kk ∈ outsPartF st.isInput ks,
        olockOtherB pfx a st.s kk = false ∧
          ((ks.foldl (scanStep pfx a) st).s).zs (pfx ++ "ilock:" ++ kk) = []) := by
  intro ks
  induction ks with
  | nil =>
    intro st _
    constructor
    · intro kk hmem
      rw [insPartF_nil] at hmem
      exact absurd hmem (List.not_mem_nil _)
    · intro kk hmem
      rw [outsPartF_nil] at hmem
      exact absurd hmem (List.not_mem_nil _)
  | cons kk ks ih =>
    intro st hEq
    rw [List.foldl_cons] at hEq ⊢
    have hstep : (scanStep pfx a st kk).fails = st.fails := fails_eq_step pfx a ks st kk hEq
    have hEq2 : (ks.foldl (scanStep pfx a) (scanStep pfx a st kk)).fails =
        (scanStep pfx a st kk).fails := by rw [hEq, hstep]
    have hIH := ih (scanStep pfx a st kk) hEq2
    have hstr : (scanStep pfx a st kk).s.str = st.s.str := scanStep_str pfx a st kk
    have holock : ∀ x, olockOtherB pfx a (scanStep pfx a st kk).s x =
        olockOtherB pfx a st.s x := by
      intro x
      unfold olockOtherB
      rw [hstr]
    by_cases hkk : kk = ""
    · subst hkk
      have hflag2 : (scanStep pfx a st "").isInput = false := by
        rw [scanStep_isInput]
        simp
      rw [hflag2] at hIH
      constructor
      · intro kk2 hmem
        cases hb : st.isInput with
        | false => rw [hb, insPartF_false] at hmem; exact absurd hmem (List.not_mem_nil _)
        | true => rw [hb, insPartF_sentinel] at hmem; exact absurd hmem (List.not_mem_nil _)
      · intro kk2 hmem
        have hmem2 : kk2 ∈ outsPartF false ks := by
          cases hb : st.isInput with
          | false => rw [hb, outsPartF_false_sentinel] at hmem; exact hmem
          | true => rw [hb, outsPartF_sentinel] at hmem; exact hmem
        have hout := hIH.2 kk2 hmem2
        exact ⟨by rw [← holock kk2]; exact hout.1, hout.2⟩
    · have hflag2 : (scanStep pfx a st kk).isInput = st.isInput := by
        rw [scanStep_isInput, if_neg hkk]
      rw [hflag2] at hIH
      cases hfl : st.isInput with
      | true =>
        rw [hfl] at hIH
        constructor
        · intro kk2 hmem
          rw [insPartF_true_cons kk ks hkk] at hmem
          rcases List.mem_cons.1 hmem with he | he
          · subst he
            exact scanStep_input_olock pfx a st kk2 hkk hfl hstep
          · have h2 := hIH.1 kk2 he
            rw [holock kk2] at h2
            exact h2
        · intro kk2 hmem
          rw [outsPartF_true_cons kk ks hkk] at hmem
          have hout := hIH.2 kk2 hmem
          exact ⟨by rw [← holock kk2]; exact hout.1, hout.2⟩
      | false =>
        rw [hfl] at hIH
        constructor
        · intro kk2 hmem
          rw [insPartF_false] at hmem
          exact absurd hmem (List.not_mem_nil _)
        · intro kk2 hmem
          rw [outsPartF_false_cons kk ks hkk] at hmem
          rcases List.mem_cons.1 hmem with he | he
          · subst he
            have hoc := scanStep_out_checks pfx a st kk2 hkk hfl hstep
            exact ⟨hoc.1, scan_zs_empty_mono pfx a ks (scanStep pfx a st kk2) _ hoc.2⟩
          · have hout := hIH.2 kk2 he
            exact ⟨by rw [← holock kk2]; exact hout.1, hout.2⟩

/-! ## Mutation-phase analysis -/

theorem zs_setex (s : Store) (k : String) (t : Int) (v : String) : (s.setex k t v).zs = s.zs :=
  rfl

theorem str_zadd (s : Store) (k : String) (sc : Int) (m : String) : (s.zadd k sc m).str = s.str :=
  rfl

theorem str_zexpire (s : Store) (k : String) (t : Int) : (s.zexpire k t).str = s.str := by
  unfold Store.zexpire
  split <;> rfl

theorem zs_zexpire (s : Store) (k : String) (t : Int) : (s.zexpire k t).zs = s.zs := by
  unfold Store.zexpire
  split <;> rfl

theorem mutStep_sentinel (pfx : String) (a : AcqArgs) (acc : Store × Bool) :
    mutStep pfx a acc "" = (acc.1, false) := by
  simp [mutStep]

theorem mutStep_flag (pfx : String) (a : AcqArgs) (acc : Store × Bool) (kk : String) :
    (mutStep pfx a acc kk).2 = if kk = "" then false else acc.2 := by
  by_cases hkk : kk = ""
  · rw [if_pos hkk, hkk, mutStep_sentinel]
  · rw [if_neg hkk]
    unfold mutStep
    dsimp only
    rw [if_neg hkk]
    repeat first | rfl | split

theorem mutStep_input_str (pfx : String) (a : AcqArgs) (s : Store) (kk : String)
    (hkk : kk ≠ "") : ((mutStep pfx a (s, true) kk).1).str = s.str := by
  unfold mutStep
  dsimp only
  rw [if_neg hkk, if_pos rfl]
  split
  · rw [str_zexpire, str_zadd]
  · rw [str_zadd]

theorem mutStep_input_zs (pfx : String) (a : AcqArgs) (s : Store) (kk : String)
    (hkk : kk ≠ "") : ((mutStep pfx a (s, true) kk).1).zs =
      (s.zadd (pfx ++ "ilock:" ++ kk) (a.now + a.duration) a.id).zs := by
  unfold mutStep
  dsimp only
  rw [if_neg hkk, if_pos rfl]
  split
  · rw [zs_zexpire]
  · rfl

theorem mutStep_out_eq (pfx : String) (a : AcqArgs) (s : Store) (kk : String)
    (hkk : kk ≠ "") :
    mutStep pfx a (s, false) kk = (s.setex (pfx ++ "olock:" ++ kk) a.duration a.id, false) := by
  unfold mutStep
  dsimp only
  rw [if_neg hkk, if_neg (show ¬(((s, false) : Store × Bool).2 = true) from by simp)]

theorem mut_pair (pfx : String) (a : AcqArgs) (acc : Store × Bool) (kk : String) :
    mutStep pfx a acc kk = ((mutStep pfx a acc kk).1, if kk = "" then false else acc.2) := by
  rw [← mutStep_flag]

theorem mut_str (pfx : String) (a : AcqArgs) :
    ∀ (ks : List String) (flag : Bool) (s : Store) (R v : String),
      (((ks.foldl (mutStep pfx a) (s, flag)).1).str (pfx ++ "olock:" ++ R) = some v) →
      s.str (pfx ++ "olock:" ++ R) = some v ∨ (v = a.id ∧ R ∈ outsPartF flag ks) := by
  intro ks
  induction ks with
  | nil => intro flag s R v h; exact Or.inl h
  | cons kk ks ih =>
    intro flag s R v h
    rw [List.foldl_cons] at h
    by_cases hkk : kk = ""
    · subst hkk
      rw [mutStep_sentinel] at h
      rcases ih false s R v h with h2 | ⟨hv, hmem⟩
      · exact Or.inl h2
      · right
        refine ⟨hv, ?_⟩
        cases flag with
        | false => rw [outsPartF_false_sentinel]; exact hmem
        | true => rw [outsPartF_sentinel]; exact hmem
    · cases flag with
      | true =>
        rw [mut_pair, if_neg hkk] at h
        rcases ih true _ R v h with h2 | ⟨hv, hmem⟩
        · rw [mutStep_input_str pfx a s kk hkk] at h2
          exact Or.inl h2
        · right
          exact ⟨hv, by rw [outsPartF_true_cons kk ks hkk]; exact hmem⟩
      | false =>
        rw [mut_pair, if_neg hkk] at h
        rw [show (mutStep pfx a (s, false) kk).1 =
          s.setex (pfx ++ "olock:" ++ kk) a.duration a.id from by
          rw [mutStep_out_eq pfx a s kk hkk]] at h
        rcases ih false _ R v h with h2 | ⟨hv, hmem⟩
        · rw [str_setex] at h2
          by_cases hx : pfx ++ "olock:" ++ R = pfx ++ "olock:" ++ kk
          · rw [if_pos hx] at h2
            have hv : v = a.id := (Option.some.inj h2).symm
            have hRkk : R = kk := str_app_cancel hx
            right
            refine ⟨hv, ?_⟩
            rw [outsPartF_false_cons kk ks hkk, ← hRkk]
            exact List.mem_cons_self _ _
          · rw [if_neg hx] at h2
            exact Or.inl h2
        · right
          refine ⟨hv, ?_⟩
          rw [outsPartF_false_cons kk ks hkk]
          exact List.mem_cons_of_mem _ hmem

theorem mut_zscore (pfx : String) (a : AcqArgs) :
    ∀ (ks : List String) (flag : Bool) (s : Store) (R m : String) (sc : Int),
      (((ks.foldl (mutStep pfx a) (s, flag)).1).zscore (pfx ++ "ilock:" ++ R) m = some sc) →
      s.zscore (pfx ++ "ilock:" ++ R) m = some sc ∨ (m = a.id ∧ R ∈ insPartF flag ks) := by
  intro ks
  induction ks with
  | nil => intro flag s R m sc h; exact Or.inl h
  | cons kk ks ih =>
    intro flag s R m sc h
    rw [List.foldl_cons] at h
    by_cases hkk : kk = ""
    · subst hkk
      rw [mutStep_sentinel] at h
      rcases ih false s R m sc h with h2 | ⟨hv, hmem⟩
      · exact Or.inl h2
      · rw [insPartF_false] at hmem
        exact absurd hmem (List.not_mem_nil _)
    · cases flag with
      | true =>
        rw [mut_pair, if_neg hkk] at h
        rcases ih true _ R m sc h with h2 | ⟨hv, hmem⟩
        · have hzs : ((mutStep pfx a (s, true) kk).1).zscore (pfx ++ "ilock:" ++ R) m =
              (s.zadd (pfx ++ "ilock:" ++ kk) (a.now + a.duration) a.id).zscore
                (pfx ++ "ilock:" ++ R) m := by
            rw [Store.zscore, Store.zscore, mutStep_input_zs pfx a s kk hkk]
          rw [hzs, zadd_zscore] at h2
          by_cases hx : pfx ++ "ilock:" ++ R = pfx ++ "ilock:" ++ kk
          · rw [if_pos hx] at h2
            by_cases hm : m = a.id
            · right
              refine ⟨hm, ?_⟩
              rw [insPartF_true_cons kk ks hkk, str_app_cancel hx]
              exact List.mem_cons_self _ _
            · rw [if_neg hm] at h2
              rw [str_app_cancel hx]
              exact Or.inl h2
          · rw [if_neg hx] at h2
            exact Or.inl h2
        · right
          exact ⟨hv, by rw [insPartF_true_cons kk ks hkk]; exact List.mem_cons_of_mem _ hmem⟩
      | false =>
        rw [mut_pair, if_neg hkk] at h
        rw [show (mutStep pfx a (s, false) kk).1 =
          s.setex (pfx ++ "olock:" ++ kk) a.duration a.id from by
          rw [mutStep_out_eq pfx a s kk hkk]] at h
        rcases ih false _ R m sc h with h2 | ⟨hv, hmem⟩
        · left
          rw [show (s.setex (pfx ++ "olock:" ++ kk) a.duration a.id).zscore
            (pfx ++ "ilock:" ++ R) m = s.zscore (pfx ++ "ilock:" ++ R) m from by
            rw [Store.zscore, Store.zscore, zs_setex]] at h2
          exact h2
        · rw [insPartF_false] at hmem
          exact absurd hmem (List.not_mem_nil _)

/-! ## Well-formedness through the mutation phase and graph writes -/

theorem WF_mutStep {pfx : String} {a : AcqArgs} {acc : Store × Bool} (hWF : acc.1.WF)
    (kk : String) : ((mutStep pfx a acc kk).1).WF := by
  by_cases hkk : kk = ""
  · subst hkk
    rw [mutStep_sentinel]
    exact hWF
  · rcases acc with ⟨t, fl⟩
    cases fl with
    | true =>
      apply WF_str_only (mutStep_input_zs pfx a t kk hkk)
      exact WF_zadd hWF _ _ _
    | false =>
      rw [mutStep_out_eq pfx a t kk hkk]
      exact WF_str_only (zs_setex t _ _ _) hWF

theorem WF_mutLoop (pfx : String) (a : AcqArgs) :
    ∀ (ks : List String) (acc : Store × Bool), acc.1.WF →
      ((ks.foldl (mutStep pfx a) acc).1).WF := by
  intro ks
  induction ks with
  | nil => intro acc h; exact h
  | cons kk ks ih =>
    intro acc h
    rw [List.foldl_cons]
    apply ih
    exact WF_mutStep h kk

theorem graphStep_str (pfx : String) (now : Int) (gid : String) (acc : Store × Bool)
    (kk : String) : ((graphStep pfx now gid acc kk).1).str = acc.1.str := by
  unfold graphStep
  repeat first | rfl | split

theorem graphStep_zs_ne (pfx : String) (now : Int) (gid : String) (acc : Store × Bool)
    (kk x : String) (h1 : x ≠ pfx ++ "jobs:graph:input") (h2 : x ≠ pfx ++ "jobs:graph:output") :
    ((graphStep pfx now gid acc kk).1).zs x = acc.1.zs x := by
  unfold graphStep
  split
  · rfl
  · split
    · rw [zs_zadd, if_neg h1]
    · rw [zs_zadd, if_neg h2]

theorem WF_graphStep {pfx : String} {now : Int} {gid : String} {acc : Store × Bool}
    (hWF : acc.1.WF) (kk : String) : ((graphStep pfx now gid acc kk).1).WF := by
  unfold graphStep
  split
  · exact hWF
  · split
    · exact WF_zadd hWF _ _ _
    · exact WF_zadd hWF _ _ _

theorem graph_fold_str (pfx : String) (now : Int) (gid : String) :
    ∀ (g : List String) (acc : Store × Bool),
      ((g.foldl (graphStep pfx now gid) acc).1).str = acc.1.str := by
  intro g
  induction g with
  | nil => intro acc; rfl
  | cons kk g ih =>
    intro acc
    rw [List.foldl_cons, ih, graphStep_str]

theorem graph_fold_zs_ne (pfx : String) (now : Int) (gid : String) :
    ∀ (g : List String) (acc : Store × Bool) (x : String),
      x ≠ pfx ++ "jobs:graph:input" → x ≠ pfx ++ "jobs:graph:output" →
      ((g.foldl (graphStep pfx now gid) acc).1).zs x = acc.1.zs x := by
  intro g
  induction g with
  | nil => intro acc x _ _; rfl
  | cons kk g ih =>
    intro acc x h1 h2
    rw [List.foldl_cons, ih _ x h1 h2, graphStep_zs_ne _ _ _ _ _ _ h1 h2]

theorem graph_fold_WF (pfx : String) (now : Int) (gid : String) :
    ∀ (g : List String) (acc : Store × Bool), acc.1.WF →
      ((g.foldl (graphStep pfx now gid) acc).1).WF := by
  intro g
  induction g with
  | nil => intro acc h; exact h
  | cons kk g ih =>
    intro acc h
    rw [List.foldl_cons]
    exact ih _ (WF_graphStep h kk)

theorem writeGraph_str (pfx : String) (now : Int) (edges : List String) (s : Store) :
    (writeGraph pfx now edges s).str = s.str := by
  unfold writeGraph
  rw [graph_fold_str]

theorem writeGraph_zs_ne (pfx : String) (now : Int) (edges : List String) (s : Store)
    (x : String) (h1 : x ≠ pfx ++ "jobs:graph:input") (h2 : x ≠ pfx ++ "jobs:graph:output") :
    (writeGraph pfx now edges s).zs x = s.zs x := by
  unfold writeGraph
  rw [graph_fold_zs_ne _ _ _ _ _ x h1 h2]

theorem writeGraph_WF {pfx : String} {now : Int} {edges : List String} {s : Store}
    (hWF : s.WF) : (writeGraph pfx now edges s).WF := by
  unfold writeGraph
  exact graph_fold_WF _ _ _ _ _ hWF

/-! ## The commit phase of the acquire script -/

theorem olock_ne_runid (pfx : String) (R i : String) :
    ¬ (pfx ++ "olock:" ++ R = pfx ++ "jobs:running:" ++ i) := by
  intro h
  rw [str_app_assoc, str_app_assoc] at h
  exact jobs_running_id_ne_olock i R (str_app_cancel h).symm

theorem ilock_ne_run (pfx : String) (R : String) :
    ¬ (pfx ++ "ilock:" ++ R = pfx ++ "jobs:running") := by
  intro h
  rw [str_app_assoc] at h
  exact jobs_running_ne_ilock R (str_app_cancel h).symm

theorem ilock_ne_graph_in (pfx : String) (R : String) :
    ¬ (pfx ++ "ilock:" ++ R = pfx ++ "jobs:graph:input") := by
  intro h
  rw [str_app_assoc] at h
  exact graph_in_ne_ilock R (str_app_cancel h).symm

theorem ilock_ne_graph_out (pfx : String) (R : String) :
    ¬ (pfx ++ "ilock:" ++ R = pfx ++ "jobs:graph:output") := by
  intro h
  rw [str_app_assoc] at h
  exact graph_out_ne_ilock R (str_app_cancel h).symm

theorem commit_str_olock (pfx : String) (a : AcqArgs) (keys : List String) (t : Store)
    (R v : String) (h : (acqCommit pfx a keys t).str (pfx ++ "olock:" ++ R) = some v) :
    t.str (pfx ++ "olock:" ++ R) = some v ∨ (v = a.id ∧ R ∈ outsPartF true keys) := by
  unfold acqCommit at h
  dsimp only at h
  have h5 : (((keys.foldl (mutStep pfx a) (t, true)).1.zadd (pfx ++ "jobs:running")
      (a.now + a.duration) a.id).setex (pfx ++ "jobs:running:" ++ a.id) a.duration
      (encodeKeys keys)).str (pfx ++ "olock:" ++ R) = some v := by
    by_cases hr : a.refresh = true
    · rw [if_pos hr] at h; exact h
    · rw [if_neg hr, writeGraph_str] at h; exact h
  rw [str_setex, if_neg (olock_ne_runid pfx R a.id)] at h5
  rw [show (((keys.foldl (mutStep pfx a) (t, true)).1.zadd (pfx ++ "jobs:running")
      (a.now + a.duration) a.id)).str = ((keys.foldl (mutStep pfx a) (t, true)).1).str from
    rfl] at h5
  exact mut_str pfx a keys true t R v h5

theorem commit_zscore_ilock (pfx : String) (a : AcqArgs) (keys : List String) (t : Store)
    (R m : String) (sc : Int)
    (h : (acqCommit pfx a keys t).zscore (pfx ++ "ilock:" ++ R) m = some sc) :
    t.zscore (pfx ++ "ilock:" ++ R) m = some sc ∨ (m = a.id ∧ R ∈ insPartF true keys) := by
  unfold acqCommit at h
  dsimp only at h
  have h5 : (((keys.foldl (mutStep pfx a) (t, true)).1.zadd (pfx ++ "jobs:running")
      (a.now + a.duration) a.id).setex (pfx ++ "jobs:running:" ++ a.id) a.duration
      (encodeKeys keys)).zscore (pfx ++ "ilock:" ++ R) m = some sc := by
    by_cases hr : a.refresh = true
    · rw [if_pos hr] at h; exact h
    · rw [if_neg hr] at h
      rw [Store.zscore, writeGraph_zs_ne _ _ _ _ _ (ilock_ne_graph_in pfx R)
        (ilock_ne_graph_out pfx R)] at h
      exact h
  rw [show (((keys.foldl (mutStep pfx a) (t, true)).1.zadd (pfx ++ "jobs:running")
      (a.now + a.duration) a.id).setex (pfx ++ "jobs:running:" ++ a.id) a.duration
      (encodeKeys keys)).zscore (pfx ++ "ilock:" ++ R) m =
      ((keys.foldl (mutStep pfx a) (t, true)).1.zadd (pfx ++ "jobs:running")
      (a.now + a.duration) a.id).zscore (pfx ++ "ilock:" ++ R) m from by
    rw [Store.zscore, Store.zscore, zs_setex]] at h5
  rw [zadd_zscore, if_neg (ilock_ne_run pfx R)] at h5
  exact mut_zscore pfx a keys true t R m sc h5

theorem commit_WF (pfx : String) (a : AcqArgs) (keys : List String) {t : Store}
    (hWF : t.WF) : (acqCommit pfx a keys t).WF := by
  unfold acqCommit
  dsimp only
  have hbase : (((keys.foldl (mutStep pfx a) (t, true)).1.zadd (pfx ++ "jobs:running")
      (a.now + a.duration) a.id).setex (pfx ++ "jobs:running:" ++ a.id) a.duration
      (encodeKeys keys)).WF := by
    apply WF_str_only (zs_setex _ _ _ _)
    exact WF_zadd (WF_mutLoop pfx a keys (t, true) hWF) _ _ _
  by_cases hr : a.refresh = true
  · rw [if_pos hr]; exact hbase
  · rw [if_neg hr]; exact writeGraph_WF hbase

/-! ## Invariant preservation by the acquire script -/

theorem acquire_inv (pfx : String) (a : AcqArgs) (keys : List String) (s : Store)
    (hWF : s.WF) (hInv : InvC2 pfx s) :
    InvC2 pfx (acquireRes pfx a keys s).2 ∧ ((acquireRes pfx a keys s).2).WF := by
  have hWF1 : (s.zremrange (pfx ++ "jobs:running") none a.now).WF := WF_zremrange hWF _ _ _
  have hfr1 : ExpFrame a.now s (s.zremrange (pfx ++ "jobs:running") none a.now) :=
    expframe_zremrange hWF _ _ _
  have hscan := scan_frame pfx a keys
    ⟨s.zremrange (pfx ++ "jobs:running") none a.now, true, [], []⟩ hWF1
  have hfrS : ExpFrame a.now s (acqScan pfx a keys s).s := expframe_trans hfr1 hscan.1
  have hWFS : ((acqScan pfx a keys s).s).WF := hscan.2
  have hInvS : InvC2 pfx (acqScan pfx a keys s).s := by
    intro R id1 id2 sc h1 h2
    apply hInv R id1 id2 sc
    · rw [← hfrS.1]; exact h1
    · rcases hfrS.2.2.1 (pfx ++ "ilock:" ++ R) id2 with he | ⟨hn, _⟩
      · rw [← he]; exact h2
      · rw [hn] at h2; exact Option.noConfusion h2
  unfold acquireRes
  dsimp only
  by_cases hf : (acqScan pfx a keys s).fails = []
  · rw [if_neg (fun hcon => hcon hf)]
    by_cases hd : a.duration = 0
    · rw [if_pos hd]
      exact ⟨hInvS, hWFS⟩
    · rw [if_neg hd]
      have hok := scan_ok pfx a keys
        ⟨s.zremrange (pfx ++ "jobs:running") none a.now, true, [], []⟩ hf
      have hcommit : InvC2 pfx (acqCommit pfx a keys (acqScan pfx a keys s).s) ∧
          (acqCommit pfx a keys (acqScan pfx a keys s).s).WF := by
        constructor
        · intro R id1 id2 sc h1 h2
          rcases commit_str_olock pfx a keys _ R id1 h1 with hA | ⟨hid1, hRout⟩
          · rcases commit_zscore_ilock pfx a keys _ R id2 sc h2 with hB | ⟨hid2, hRin⟩
            · exact hInvS R id1 id2 sc hA hB
            · have hol := hok.1 R hRin
              have hstrS : ((acqScan pfx a keys s).s).str =
                  (s.zremrange (pfx ++ "jobs:running") none a.now).str :=
                scan_str_const pfx a keys _
              rw [hstrS] at hA
              rw [hid2]
              exact (olockOtherB_false_val hol hA).symm
          · rcases commit_zscore_ilock pfx a keys _ R id2 sc h2 with hB | ⟨hid2, hRin⟩
            · have hout := hok.2 R hRout
              have hzz : ((acqScan pfx a keys s).s).zs (pfx ++ "ilock:" ++ R) = [] := hout.2
              have hnone : ((acqScan pfx a keys s).s).zscore (pfx ++ "ilock:" ++ R) id2 =
                  none := by
                rw [Store.zscore, hzz]
                rfl
              rw [hnone] at hB
              exact Option.noConfusion hB
            · rw [hid1, hid2]
        · exact commit_WF pfx a keys hWFS
      by_cases ht : (acqScan pfx a keys s).temps = []
      · rw [if_neg (fun hcon => hcon ht)]
        exact hcommit
      · rw [if_pos ht]
        exact hcommit
  · rw [if_pos hf]
    exact ⟨hInvS, hWFS⟩

/-! ## Invariant preservation by the finish script -/

theorem zscoreL_filter_some {l : List (String × Int)} (hnd : (l.map Prod.fst).Nodup)
    {p : String × Int → Bool} {m : String} {sc : Int}
    (h : zscoreL (l.filter p) m = some sc) : zscoreL l m = some sc := by
  rw [zscoreL_filter hnd] at h
  cases hsc : zscoreL l m with
  | none => rw [hsc] at h; exact Option.noConfusion h
  | some sc2 =>
    rw [hsc] at h
    by_cases hp : p (m, sc2) = true
    · rw [show (some sc2).bind (fun sc => if p (m, sc) then some sc else none) = some sc2 from by
        simp [hp]] at h
      exact h
    · rw [show (some sc2).bind (fun sc => if p (m, sc) then some sc else none) = none from by
        simp [hp]] at h
      exact Option.noConfusion h

theorem finish_zs_filter (pfx : String) (a : FinArgs) (keys : List String) (s : Store)
    (x : String) :
    (finishScript pfx a keys s).zs x =
      (s.zs x).filter (fun e => (cellZCmds (finZCmds pfx a keys) x).all (fun p => p e)) := by
  have h := congrArg Prod.fst (finish_z_cell pfx a keys s x)
  dsimp only at h
  rw [h, applyZCell_fst]

theorem finish_WF {pfx : String} {a : FinArgs} {keys : List String} {s : Store}
    (hWF : s.WF) : (finishScript pfx a keys s).WF := by
  intro x
  rw [finish_zs_filter]
  exact nodup_filter_keys (hWF x) _

theorem finish_zscore_some {pfx : String} {a : FinArgs} {keys : List String} {s : Store}
    (hWF : s.WF) {x m : String} {sc : Int}
    (h : (finishScript pfx a keys s).zscore x m = some sc) : s.zscore x m = some sc := by
  rw [Store.zscore, finish_zs_filter] at h
  exact zscoreL_filter_some (hWF x) h

theorem finStrCmdsF_olock_cdel (pfx : String) (a : FinArgs) (R : String) :
    ∀ (ks : List String) (flag : Bool), (∀ k ∈ ks, cleanKey k = true) →
      ∀ c ∈ cellCmds (finStrCmdsF pfx a flag ks) (pfx ++ "olock:" ++ R), c = Cmd.cdel := by
  intro ks
  induction ks with
  | nil =>
    intro flag _ c hc
    exact absurd hc (List.not_mem_nil _)
  | cons kk ks ih =>
    intro flag hclean c hc
    have hcleanT : ∀ k ∈ ks, cleanKey k = true :=
      fun k hk => hclean k (List.mem_cons_of_mem _ hk)
    by_cases hkk : kk = ""
    · subst hkk
      rw [show finStrCmdsF pfx a flag ("" :: ks) = finStrCmdsF pfx a false ks from by
        simp [finStrCmdsF]] at hc
      exact ih false hcleanT c hc
    · cases flag with
      | true =>
        rw [show finStrCmdsF pfx a true (kk :: ks) = finStrCmdsF pfx a true ks from by
          simp [finStrCmdsF, hkk]] at hc
        exact ih true hcleanT c hc
      | false =>
        rw [show finStrCmdsF pfx a false (kk :: ks) =
            ((pfx ++ "olock:" ++ kk, Cmd.cdel) ::
              (if a.success then [(pfx ++ kk, Cmd.sets)] else [])) ++
              finStrCmdsF pfx a false ks from by simp [finStrCmdsF, hkk]] at hc
        rw [cellCmds_append, cellCmds_cons] at hc
        have hmk : ∀ hcm : c ∈ cellCmds (if a.success then [(pfx ++ kk, Cmd.sets)] else [])
            (pfx ++ "olock:" ++ R) ++ cellCmds (finStrCmdsF pfx a false ks)
            (pfx ++ "olock:" ++ R), c = Cmd.cdel := by
          intro hcm
          rcases List.mem_append.1 hcm with hl | hr
          · exfalso
            by_cases hs : a.success = true
            · rw [if_pos hs, cellCmds_cons, cellCmds_nil] at hl
              have hne : ¬ (pfx ++ kk = pfx ++ "olock:" ++ R) := by
                intro he
                rw [str_app_assoc] at he
                have hkr := str_app_cancel he
                have := hclean kk (List.mem_cons_self _ _)
                exact clean_not_olock this R hkr
              rw [if_neg hne] at hl
              exact absurd hl (List.not_mem_nil _)
            · rw [if_neg hs] at hl
              exact absurd hl (List.not_mem_nil _)
          · exact ih false hcleanT c hr
        by_cases ho : pfx ++ "olock:" ++ kk = pfx ++ "olock:" ++ R
        · rw [if_pos ho] at hc
          rcases List.mem_cons.1 hc with he | he
          · exact he
          · exact hmk he
        · rw [if_neg ho] at hc
          exact hmk hc

theorem applyCell_cdel_some {id : String} {L : List Cmd} (hall : ∀ c ∈ L, c = Cmd.cdel)
    {v : Option String × Option Int} {w : String}
    (h : (applyCell id L v).1 = some w) : v.1 = some w := by
  rw [applyCell_all_cdel id L hall] at h
  by_cases hL : L = []
  · rw [if_pos hL] at h; exact h
  · rw [if_neg hL] at h
    unfold stepCell at h
    by_cases hv : v.1 = some id
    · rw [if_pos hv] at h
      exact Option.noConfusion h
    · rw [if_neg hv] at h
      exact h

theorem finish_olock_str {pfx : String} {a : FinArgs} {keys : List String} {s : Store}
    (hclean : ∀ k ∈ keys, cleanKey k = true) {R v : String}
    (h : (finishScript pfx a keys s).str (pfx ++ "olock:" ++ R) = some v) :
    s.str (pfx ++ "olock:" ++ R) = some v := by
  have hp := congrArg Prod.fst (finish_str_cell pfx a keys s (pfx ++ "olock:" ++ R))
  dsimp only at hp
  rw [hp] at h
  have hall : ∀ c ∈ cellCmds (finStrCmds pfx a keys) (pfx ++ "olock:" ++ R), c = Cmd.cdel := by
    intro c hc
    unfold finStrCmds at hc
    rw [cellCmds_append] at hc
    rcases List.mem_append.1 hc with hl | hr
    · exact finStrCmdsF_olock_cdel pfx a R keys true hclean c hl
    · rw [cellCmds_cons, cellCmds_nil] at hr
      rw [if_neg (fun he => olock_ne_runid pfx R a.id he.symm)] at hr
      exact absurd hr (List.not_mem_nil _)
  exact applyCell_cdel_some hall h

theorem finish_inv (pfx : String) (a : FinArgs) (keys : List String) (s : Store)
    (hclean : ∀ k ∈ keys, cleanKey k = true) (hWF : s.WF) (hInv : InvC2 pfx s) :
    InvC2 pfx (finishScript pfx a keys s) ∧ (finishScript pfx a keys s).WF := by
  constructor
  · intro R id1 id2 sc h1 h2
    exact hInv R id1 id2 sc (finish_olock_str hclean h1) (finish_zscore_some hWF h2)
  · exact finish_WF hWF

/-! ## C2: the olock/ilock exclusion invariant -/

theorem reachable_inv_wf (pfx : String) (s : Store) (h : Reachable pfx s) :
    InvC2 pfx s ∧ s.WF := by
  induction h with
  | empty =>
    constructor
    · intro R id1 id2 sc h1 _
      exact Option.noConfusion h1
    · intro k
      exact List.nodup_nil
  | acq s a keys hreach hclean ih => exact acquire_inv pfx a keys s ih.2 ih.1
  | fin s a keys hreach hclean ih => exact finish_inv pfx a keys s hclean ih.2 ih.1
  | listr s now hreach ih => exact ih

/-- C2: for every store state reachable from the empty store by any sequence
of executions of the three scripts — acquire/refresh, finish, list_running —
where every resource name supplied in a key list avoids the reserved prefixes
olock:/ilock:/jobs: (the library's own layout guarantees this), an output lock
on a resource held by one identifier and an input-lock membership on the same
resource by a different identifier never coexist. Without the reserved-prefix
restriction the invariant is false, see the accompanying counterexample. -/
theorem c2_invariant_reachable (pfx : String) (s : Store) (h : Reachable pfx s) :
    InvC2 pfx s :=
  (reachable_inv_wf pfx s h).1

theorem c2_witness :
    InvC2 "" (acquireRes "" ⟨"a", 0, 10, false, false, ["", ""]⟩ ["", "X"] emptyStore).2 :=
  c2_invariant_reachable "" _
    (Reachable.acq emptyStore ⟨"a", 0, 10, false, false, ["", ""]⟩ ["", "X"]
      Reachable.empty (by decide))

/-- The invariant of C2 fails for an unrestricted script sequence: a job that
declares an output literally named "olock:Y" writes its finish marker onto the
key that stores Y's output lock, after which that fabricated output lock for Y
coexists with a distinct identifier's input-lock membership on Y. -/
theorem c2_counterexample :
    ¬ InvC2 ""
      (finishScript "" ⟨"c", 0, true⟩ ["", "olock:Y"]
        (acquireRes "" ⟨"c", 0, 10, false, false, ["", ""]⟩ ["", "olock:Y"]
          (acquireRes "" ⟨"b", 0, 10, false, false, ["", ""]⟩ ["Y", ""]
            (finishScript "" ⟨"a", 0, true⟩ ["", "Y"]
              (acquireRes "" ⟨"a", 0, 10, false, false, ["", ""]⟩ ["", "Y"]
                emptyStore).2)).2).2) := by
  intro h
  have hb := h "Y" "c" "b" 10 (by decide) (by decide)
  exact absurd hb (by decide)
